import Mathlib

/-!
Verification of the version-bump / tag / clean command core of the
python-dotnet-tools repository, as a shallow embedding over `List Char`.
File contents are modelled as lists of characters; the regular expressions
of the source are modelled by the deterministic scanners they denote.
-/

namespace PDT

/-! ### Generic list utilities -/

/-- Number of (possibly overlapping) occurrence positions of `sub` in `s`. -/
def countOccur (sub : List Char) : List Char → Nat
  | [] => 0
  | c :: rest => (if sub <+: (c :: rest) then 1 else 0) + countOccur sub rest

/-- Boolean substring test, the model of Python's `in` on strings. -/
def containsSub (sub s : List Char) : Bool := decide (sub <:+: s)

/-- Strip an expected literal from the front of a list, the model of a
regex literal at the current match position. -/
def stripPre : List Char → List Char → Option (List Char)
  | [], cs => some cs
  | _ :: _, [] => none
  | p :: ps, c :: cs => if p = c then stripPre ps cs else none

/-- The model of Python's `", ".join(...)`. -/
def joinComma : List (List Char) → List Char
  | [] => []
  | [n] => n
  | n :: ns => n ++ ", ".toList ++ joinComma ns

/-! ### Small facts about the utilities -/

theorem pre_extend {xs ys : List Char} (zs : List Char) (h : xs <+: ys) :
    xs <+: ys ++ zs :=
  h.trans ⟨zs, rfl⟩

theorem pre_cons {x y : Char} {xs ys : List Char} :
    (x :: xs) <+: (y :: ys) ↔ x = y ∧ xs <+: ys := by
  constructor
  · rintro ⟨t, ht⟩
    injection ht with h1 h2
    exact ⟨h1, t, h2⟩
  · rintro ⟨rfl, t, ht⟩
    exact ⟨t, by rw [List.cons_append, ht]⟩

theorem pre_of_pre_append {xs ys zs : List Char} (h : xs <+: ys ++ zs)
    (hl : xs.length ≤ ys.length) : xs <+: ys := by
  induction xs generalizing ys with
  | nil => exact ⟨ys, rfl⟩
  | cons x xs ih =>
    cases ys with
    | nil => simp at hl
    | cons y ys =>
      rw [List.cons_append, pre_cons] at h
      exact pre_cons.mpr ⟨h.1, ih h.2 (by simpa using hl)⟩

theorem pre_head {xs ys : List Char} (h : xs <+: ys) (hne : xs ≠ []) :
    ys.head? = xs.head? := by
  cases xs with
  | nil => exact absurd rfl hne
  | cons x xs =>
    cases ys with
    | nil =>
      have := h.length_le
      simp at this
    | cons y ys => rw [pre_cons] at h; simp [h.1]

theorem head_mem {l : List Char} {c : Char} (h : l.head? = some c) : c ∈ l := by
  cases l with
  | nil => simp at h
  | cons a t =>
    simp at h
    simp [h]

theorem glast_append {t u : List Char} (h : u ≠ []) :
    (t ++ u).getLast? = u.getLast? := by
  cases u with
  | nil => exact absurd rfl h
  | cons b v => rw [List.getLast?_append_cons]

theorem glast_mem {l : List Char} {c : Char} (h : l.getLast? = some c) : c ∈ l := by
  rw [← List.head?_reverse] at h
  have hm : c ∈ l.reverse := head_mem h
  simpa using hm

theorem pre_tail_pre {xs ys zs : List Char} (h : xs <+: ys ++ zs)
    (hl : ys.length < xs.length) : ys <+: xs ∧ xs.drop ys.length <+: zs := by
  induction ys generalizing xs with
  | nil => exact ⟨⟨xs, rfl⟩, by simpa using h⟩
  | cons y ys ih =>
    cases xs with
    | nil => simp at hl
    | cons x xs =>
      rw [List.cons_append, pre_cons] at h
      have := ih h.2 (by simpa using hl)
      exact ⟨pre_cons.mpr ⟨h.1.symm, this.1⟩, by simpa using this.2⟩

theorem pre_full_drop {xs ys : List Char} (h : xs <+: ys) :
    ys = xs ++ ys.drop xs.length := by
  rcases h with ⟨t, rfl⟩
  rw [List.drop_left]

/-! ### countOccur lemmas -/

theorem countOccur_nil (sub : List Char) : countOccur sub [] = 0 := rfl

theorem countOccur_cons (sub : List Char) (c : Char) (rest : List Char) :
    countOccur sub (c :: rest) =
      (if sub <+: (c :: rest) then 1 else 0) + countOccur sub rest := rfl

theorem countOccur_le_left (sub A B : List Char) :
    countOccur sub A ≤ countOccur sub (A ++ B) := by
  induction A with
  | nil => simp [countOccur]
  | cons a A ih =>
    rw [List.cons_append, countOccur_cons, countOccur_cons]
    refine Nat.add_le_add ?_ ih
    by_cases h : sub <+: (a :: A)
    · have h2 : sub <+: a :: (A ++ B) := by
        have := pre_extend B h
        rwa [List.cons_append] at this
      simp [h, h2]
    · rw [if_neg h]
      exact Nat.zero_le _

theorem countOccur_le_right (sub A B : List Char) :
    countOccur sub B ≤ countOccur sub (A ++ B) := by
  induction A with
  | nil => simp
  | cons a A ih =>
    rw [List.cons_append, countOccur_cons]
    exact ih.trans (Nat.le_add_left _ _)

theorem countOccur_append_zero {sub A B : List Char}
    (h : countOccur sub (A ++ B) = 0) :
    countOccur sub A = 0 ∧ countOccur sub B = 0 :=
  ⟨Nat.le_zero.mp (h ▸ countOccur_le_left sub A B),
   Nat.le_zero.mp (h ▸ countOccur_le_right sub A B)⟩

/-- Splitting `countOccur` over an append, given that no occurrence of `sub`
straddles the boundary. -/
theorem countOccur_append_split (sub A B : List Char)
    (h : ∀ i, i < A.length → sub <+: (A.drop i ++ B) → sub <+: A.drop i) :
    countOccur sub (A ++ B) = countOccur sub A + countOccur sub B := by
  induction A with
  | nil => simp [countOccur]
  | cons a A ih =>
    have h0 : sub <+: (a :: A) ++ B → sub <+: (a :: A) := by
      have := h 0 (by simp)
      simpa using this
    have ih' := ih (fun i hi hp => by
      have := h (i + 1) (by simpa using Nat.succ_lt_succ hi)
      simpa using this hp)
    rw [List.cons_append, countOccur_cons, countOccur_cons, ih']
    by_cases hc : sub <+: (a :: A)
    · have : sub <+: a :: (A ++ B) := by
        have := pre_extend B hc; rwa [List.cons_append] at this
      simp [hc, this, Nat.add_assoc]
    · have : ¬ sub <+: a :: (A ++ B) := fun hp => hc (h0 (by rwa [List.cons_append]))
      simp [hc, this, Nat.add_assoc]

/-- No occurrence of `sub` can straddle a boundary whose right side starts
with a character not occurring in `sub`. -/
theorem no_straddle_head {sub B : List Char}
    (hB : ∀ c, B.head? = some c → c ∉ sub) (A : List Char) :
    ∀ i, i < A.length → sub <+: (A.drop i ++ B) → sub <+: A.drop i := by
  intro i hi hp
  by_cases hl : sub.length ≤ (A.drop i).length
  · exact pre_of_pre_append hp hl
  · exfalso
    have hlen : (A.drop i).length < sub.length := Nat.lt_of_not_le hl
    have ht := pre_tail_pre hp hlen
    have hne : sub.drop (A.drop i).length ≠ [] := by
      intro hnil
      have hz := congrArg List.length hnil
      rw [List.length_drop] at hz
      simp only [List.length_nil] at hz
      omega
    have hh := pre_head ht.2 hne
    cases hc : (sub.drop (A.drop i).length).head? with
    | none =>
      rw [hc] at hh
      cases hd : sub.drop (A.drop i).length with
      | nil => exact hne hd
      | cons d t => rw [hd] at hc; simp at hc
    | some c =>
      have hcB : B.head? = some c := by rw [hh, hc]
      have hcmem : c ∈ sub := List.drop_subset _ _ (head_mem hc)
      exact hB c hcB hcmem

/-- No occurrence of `sub` can straddle a boundary whose left side ends
with a character not occurring in `sub`. -/
theorem no_straddle_last {sub A : List Char} (B : List Char)
    (hA : ∀ c, A.getLast? = some c → c ∉ sub) :
    ∀ i, i < A.length → sub <+: (A.drop i ++ B) → sub <+: A.drop i := by
  intro i hi hp
  by_cases hl : sub.length ≤ (A.drop i).length
  · exact pre_of_pre_append hp hl
  · exfalso
    have hne : A.drop i ≠ [] := by
      intro hnil
      have hz := congrArg List.length hnil
      rw [List.length_drop] at hz
      simp only [List.length_nil] at hz
      omega
    have hdl : (A.drop i).getLast? = A.getLast? := by
      rcases List.drop_suffix i A with ⟨t, ht⟩
      conv_rhs => rw [← ht]
      exact (glast_append hne).symm
    cases hc : (A.drop i).getLast? with
    | none =>
      cases hd : A.drop i with
      | nil => exact hne hd
      | cons d t => rw [hd] at hc; simp at hc
    | some c =>
      have hmem : c ∈ A.drop i := glast_mem hc
      have hcsub : c ∈ sub := by
        have hpre : A.drop i <+: sub := (pre_tail_pre hp (Nat.lt_of_not_le hl)).1
        exact hpre.subset hmem
      exact hA c (hdl ▸ hc) hcsub

theorem countOccur_append_head (sub A B : List Char)
    (hB : ∀ c, B.head? = some c → c ∉ sub) :
    countOccur sub (A ++ B) = countOccur sub A + countOccur sub B :=
  countOccur_append_split sub A B (no_straddle_head hB A)

theorem countOccur_append_last (sub A B : List Char)
    (hA : ∀ c, A.getLast? = some c → c ∉ sub) :
    countOccur sub (A ++ B) = countOccur sub A + countOccur sub B :=
  countOccur_append_split sub A B (no_straddle_last B hA)

theorem countOccur_zero_of_not_mem {sub s : List Char} {c : Char}
    (hc : c ∈ sub) (hs : c ∉ s) : countOccur sub s = 0 := by
  induction s with
  | nil => rfl
  | cons a rest ih =>
    rw [countOccur_cons]
    have h1 : ¬ sub <+: (a :: rest) := fun hp => hs (hp.subset hc)
    have h2 : countOccur sub rest = 0 := ih (fun hm => hs (List.mem_cons_of_mem a hm))
    simp [h1, h2]

theorem countOccur_pos_of_pre_drop {sub s : List Char} {i : Nat}
    (h : sub <+: s.drop i) (hi : i < s.length) : 0 < countOccur sub s := by
  induction s generalizing i with
  | nil => simp at hi
  | cons a rest ih =>
    rw [countOccur_cons]
    cases i with
    | zero =>
      simp only [List.drop_zero] at h
      simp [h]
    | succ j =>
      have := ih (by simpa using h) (by simpa using hi)
      omega

/-! ### takeWhile / dropWhile helpers -/

theorem tw_mem {p : Char → Bool} : ∀ {l : List Char}, ∀ c ∈ l.takeWhile p, p c = true := by
  intro l
  induction l with
  | nil => intro c hc; simp [List.takeWhile] at hc
  | cons a rest ih =>
    intro c hc
    rw [List.takeWhile_cons] at hc
    by_cases ha : p a
    · simp [ha] at hc
      rcases hc with rfl | hc
      · exact ha
      · exact ih c hc
    · simp [ha] at hc

theorem tw_stop {p : Char → Bool} {d : List Char} {c : Char} (r : List Char)
    (hd : ∀ x ∈ d, p x = true) (hc : p c = false) :
    (d ++ c :: r).takeWhile p = d ∧ (d ++ c :: r).dropWhile p = c :: r := by
  induction d with
  | nil => simp [List.takeWhile_cons, List.dropWhile_cons, hc]
  | cons a d ih =>
    have ha : p a = true := hd a (by simp)
    have ih' := ih (fun x hx => hd x (List.mem_cons_of_mem a hx))
    simp [List.takeWhile_cons, List.dropWhile_cons, ha, ih'.1, ih'.2]

theorem tw_all {p : Char → Bool} {d : List Char} (hd : ∀ x ∈ d, p x = true) :
    d.takeWhile p = d ∧ d.dropWhile p = [] := by
  induction d with
  | nil => simp
  | cons a d ih =>
    have ha : p a = true := hd a (by simp)
    have ih' := ih (fun x hx => hd x (List.mem_cons_of_mem a hx))
    simp [List.takeWhile_cons, List.dropWhile_cons, ha, ih'.1, ih'.2]

/-! ### The semantic version grammar, model of `bump.py` -/

/-- Model of `re.fullmatch(r"\d+\.\d+\.\d+", v)` as a deterministic scan
(ASCII digits). -/
def isVersionShape (v : List Char) : Bool :=
  match v.dropWhile Char.isDigit with
  | [] => false
  | c1 :: r1 =>
    if c1 = '.' then
      match r1.dropWhile Char.isDigit with
      | [] => false
      | c2 :: r2 =>
        if c2 = '.' then
          !(v.takeWhile Char.isDigit).isEmpty && !(r1.takeWhile Char.isDigit).isEmpty &&
            !(r2.takeWhile Char.isDigit).isEmpty && (r2.dropWhile Char.isDigit).isEmpty
        else false
    else false

/-- Declarative reading of the full-string pattern `\d+\.\d+\.\d+`:
three non-empty all-digit segments separated by single dots. -/
def fullMatchDDD (s : List Char) : Prop :=
  ∃ d1 d2 d3 : List Char,
    s = d1 ++ '.' :: (d2 ++ '.' :: d3) ∧
    d1 ≠ [] ∧ d2 ≠ [] ∧ d3 ≠ [] ∧
    (∀ c ∈ d1, c.isDigit = true) ∧ (∀ c ∈ d2, c.isDigit = true) ∧
    (∀ c ∈ d3, c.isDigit = true)

theorem isVersionShape_iff (s : List Char) : isVersionShape s = true ↔ fullMatchDDD s := by
  constructor
  · intro h
    unfold isVersionShape at h
    split at h
    · simp at h
    · rename_i c1 r1 h1
      split at h
      · rename_i hc1
        subst hc1
        split at h
        · simp at h
        · rename_i c2 r2 h2
          split at h
          · rename_i hc2
            subst hc2
            simp only [Bool.and_eq_true, Bool.not_eq_true'] at h
            refine ⟨s.takeWhile Char.isDigit, r1.takeWhile Char.isDigit,
              r2.takeWhile Char.isDigit, ?_, ?_, ?_, ?_, ?_, ?_, ?_⟩
            · have hs := List.takeWhile_append_dropWhile Char.isDigit s
              have hr1 := List.takeWhile_append_dropWhile Char.isDigit r1
              have hr2 := List.takeWhile_append_dropWhile Char.isDigit r2
              have hr2nil : r2.dropWhile Char.isDigit = [] := by
                have := h.2
                simpa using this
              conv_lhs => rw [← hs, h1]
              conv_lhs => rw [← hr1, h2]
              conv_lhs => rw [← hr2, hr2nil]
              simp
            · have := h.1.1.1; simpa using this
            · have := h.1.1.2; simpa using this
            · have := h.1.2; simpa using this
            · exact fun c hc => tw_mem c hc
            · exact fun c hc => tw_mem c hc
            · exact fun c hc => tw_mem c hc
          · simp at h
      · simp at h
  · rintro ⟨d1, d2, d3, rfl, h1, h2, h3, hd1, hd2, hd3⟩
    have hdot : Char.isDigit '.' = false := by decide
    have t1 := tw_stop (d2 ++ '.' :: d3) hd1 hdot
    have t2 := tw_stop d3 hd2 hdot
    have t3 := tw_all hd3
    simp [isVersionShape, t1.1, t1.2, t2.1, t2.2, t3.1, t3.2, h1, h2, h3]

/-! ### `compute_target` and `validate_version` from `bump.py` -/

def majorFlag : List Char := "--major".toList
def minorFlag : List Char := "--minor".toList
def patchFlag : List Char := "--patch".toList

/-- Model of Python's `s.split('.')`. -/
def splitDots : List Char → List (List Char)
  | [] => [[]]
  | c :: rest =>
    if c = '.' then [] :: splitDots rest
    else
      match splitDots rest with
      | p :: ps => (c :: p) :: ps
      | [] => [[c]]

/-- Model of `int(...)` on a decimal digit string (ASCII digits). -/
def pyToInt (cs : List Char) : Option Nat :=
  if cs ≠ [] ∧ cs.all Char.isDigit then
    some (cs.foldl (fun a c => a * 10 + (c.toNat - 48)) 0)
  else none

def renderNat (n : Nat) : List Char := (Nat.repr n).toList

/-- Rendering of `f"{a}.{b}.{c}"`. -/
def renderV (a b c : Nat) : List Char :=
  renderNat a ++ '.' :: (renderNat b ++ '.' :: renderNat c)

/-- `major, minor, patch = map(int, current.split("."))` -/
def bumpParts (s : List Char) : Option (Nat × Nat × Nat) :=
  match (splitDots s).map pyToInt with
  | [some a, some b, some c] => some (a, b, c)
  | _ => none

/-- Outcome of a bump.py helper: normal value, `error(...)`+`sys.exit(1)`,
or an uncaught Python exception. -/
inductive BumpOut where
  | ok (v : List Char)
  | exit1 (msg : List Char)
  | pyCrash
deriving DecidableEq

def reqVersionMsg : List Char :=
  " requires existing version (<Version> tag missing in csproj)".toList

/-- Model of `compute_target` in `bump.py`. -/
def compute_target (arg : List Char) (current : Option (List Char)) : BumpOut :=
  if (arg = majorFlag ∨ arg = minorFlag ∨ arg = patchFlag) ∧ current = none then
    .exit1 (arg ++ reqVersionMsg)
  else if arg = majorFlag then
    match current with
    | some s =>
      match bumpParts s with
      | some (M, _, _) => .ok (renderV (M + 1) 0 0)
      | none => .pyCrash
    | none => .pyCrash
  else if arg = minorFlag then
    match current with
    | some s =>
      match bumpParts s with
      | some (M, N, _) => .ok (renderV M (N + 1) 0)
      | none => .pyCrash
    | none => .pyCrash
  else if arg = patchFlag then
    match current with
    | some s =>
      match bumpParts s with
      | some (M, N, P) => .ok (renderV M N (P + 1))
      | none => .pyCrash
    | none => .pyCrash
  else .ok arg

def invalidFormatMsg : List Char := "Invalid version format: ".toList

/-- Model of `validate_version` in `bump.py`. -/
def validate_version (v : List Char) : Except (List Char) Unit :=
  if isVersionShape v then .ok () else .error (invalidFormatMsg ++ v)

/-! ### Claims C6, C7, C8 -/

/-- C6: for every current version string that splits into three integers
M, N, P, the version computer returns `(M+1).0.0` for `--major`,
`M.(N+1).0` for `--minor`, and `M.N.(P+1)` for `--patch`. -/
theorem claim6_increment_correct (s : List Char) (M N P : Nat)
    (h : bumpParts s = some (M, N, P)) :
    compute_target majorFlag (some s) = .ok (renderV (M + 1) 0 0) ∧
    compute_target minorFlag (some s) = .ok (renderV M (N + 1) 0) ∧
    compute_target patchFlag (some s) = .ok (renderV M N (P + 1)) := by
  refine ⟨?_, ?_, ?_⟩ <;>
    simp [compute_target, h, majorFlag, minorFlag, patchFlag]

/-- Witness for C6 at the concrete input `"1.2.3"`, yielding the three
spec-mandated results `2.0.0`, `1.3.0`, `1.2.4`. -/
theorem claim6_increment_correct_witness :
    compute_target majorFlag (some "1.2.3".toList) = .ok "2.0.0".toList ∧
    compute_target minorFlag (some "1.2.3".toList) = .ok "1.3.0".toList ∧
    compute_target patchFlag (some "1.2.3".toList) = .ok "1.2.4".toList :=
  claim6_increment_correct "1.2.3".toList 1 2 3 (by decide)

/-- C7: validation succeeds exactly on full-string matches of
`\d+\.\d+\.\d+`, and on any other string it produces the
`Invalid version format` error naming the rejected string. -/
theorem claim7_validate_iff (s : List Char) :
    (validate_version s = .ok () ↔ fullMatchDDD s) ∧
    (validate_version s = .ok () ∨
      validate_version s = .error (invalidFormatMsg ++ s)) := by
  constructor
  · rw [← isVersionShape_iff]
    unfold validate_version
    by_cases h : isVersionShape s <;> simp [h]
  · unfold validate_version
    by_cases h : isVersionShape s <;> simp [h]

/-- C8: every increment directive applied with no current version yields the
hard `requires existing version` error naming the directive (no default). -/
theorem claim8_missing_base :
    compute_target majorFlag none = .exit1 (majorFlag ++ reqVersionMsg) ∧
    compute_target minorFlag none = .exit1 (minorFlag ++ reqVersionMsg) ∧
    compute_target patchFlag none = .exit1 (patchFlag ++ reqVersionMsg) := by
  refine ⟨?_, ?_, ?_⟩ <;> rfl

/-! ### The version-tag scanners of `bump.py` -/

def openV : List Char := "<Version>".toList
def closeV : List Char := "</Version>".toList
def openPkg : List Char := "<PackageId>".toList
def closePkg : List Char := "</PackageId>".toList
def openPG : List Char := "<PropertyGroup>".toList
def indentL : List Char := "    ".toList
def nlL : List Char := ['\n']

/-- Model of Python's `\s` on ASCII text (`str.strip` uses the same set). -/
def isPySpace (c : Char) : Bool :=
  c = ' ' || c = '\t' || c = '\n' || c = '\r' || c = Char.ofNat 11 || c = Char.ofNat 12

/-- Attempt to match `<Version>(\d+\.\d+\.\d+)</Version>` at the head of
`cs`; on success return the captured payload and the rest after the match.
The regex is deterministic here: each greedy digit run is followed by a
mandatory non-digit literal, so no backtracking alternative exists. -/
def tryMatchVersionHere (cs : List Char) : Option (List Char × List Char) :=
  match stripPre openV cs with
  | none => none
  | some r0 =>
    match r0.dropWhile Char.isDigit with
    | [] => none
    | c1 :: r1 =>
      if c1 = '.' then
        match r1.dropWhile Char.isDigit with
        | [] => none
        | c2 :: r2 =>
          if c2 = '.' then
            match stripPre closeV (r2.dropWhile Char.isDigit) with
            | none => none
            | some suf =>
              if (r0.takeWhile Char.isDigit).isEmpty || (r1.takeWhile Char.isDigit).isEmpty ||
                  (r2.takeWhile Char.isDigit).isEmpty then none
              else
                some (r0.takeWhile Char.isDigit ++ '.' ::
                  (r1.takeWhile Char.isDigit ++ '.' :: r2.takeWhile Char.isDigit), suf)
          else none
      else none

/-- Model of `re.search` for the version-tag pattern: leftmost match,
returned as (text before the match, captured payload, text after). -/
def findFirstVersionMatch : List Char → Option (List Char × List Char × List Char)
  | [] => none
  | c :: rest =>
    match tryMatchVersionHere (c :: rest) with
    | some (v, suf) => some ([], v, suf)
    | none =>
      match findFirstVersionMatch rest with
      | some (p, v, suf) => some (c :: p, v, suf)
      | none => none

/-- First occurrence split: `s = before ++ pat ++ after` at the leftmost
occurrence of `pat`. -/
def findSplit (pat : List Char) : List Char → Option (List Char × List Char)
  | [] => if pat = [] then some ([], []) else none
  | c :: rest =>
    if pat <+: (c :: rest) then some ([], (c :: rest).drop pat.length)
    else
      match findSplit pat rest with
      | some (b, a) => some (c :: b, a)
      | none => none

/-- Attempt to match `(<PackageId>.*?</PackageId>\s*)` (DOTALL) at the head
of `cs`: shortest body up to the first close tag, then a greedy whitespace
run.  Returns the full matched text and the rest. -/
def tryPkgHere (cs : List Char) : Option (List Char × List Char) :=
  match stripPre openPkg cs with
  | none => none
  | some r =>
    match findSplit closePkg r with
    | none => none
    | some (body, after) =>
      some (openPkg ++ body ++ closePkg ++ after.takeWhile isPySpace,
        after.dropWhile isPySpace)

/-- Leftmost `re.search` for the PackageId pattern. -/
def findPkg : List Char → Option (List Char × List Char × List Char)
  | [] => none
  | c :: rest =>
    match tryPkgHere (c :: rest) with
    | some (m, suf) => some ([], m, suf)
    | none =>
      match findPkg rest with
      | some (p, m, suf) => some (c :: p, m, suf)
      | none => none

/-- Attempt to match `(<PropertyGroup>\s*)` at the head of `cs`. -/
def tryPGHere (cs : List Char) : Option (List Char × List Char) :=
  match stripPre openPG cs with
  | none => none
  | some r => some (openPG ++ r.takeWhile isPySpace, r.dropWhile isPySpace)

/-- Leftmost `re.search` for the PropertyGroup pattern. -/
def findPG : List Char → Option (List Char × List Char × List Char)
  | [] => none
  | c :: rest =>
    match tryPGHere (c :: rest) with
    | some (m, suf) => some ([], m, suf)
    | none =>
      match findPG rest with
      | some (p, m, suf) => some (c :: p, m, suf)
      | none => none

/-- Model of `insert_or_replace_version` in `bump.py`: replace the payload
of the first `<Version>X.Y.Z</Version>` tag, else insert after the
PackageId match, else after the PropertyGroup match, else append. -/
def insert_or_replace_version (raw version : List Char) : List Char :=
  match findFirstVersionMatch raw with
  | some (p, _, s) => p ++ openV ++ version ++ closeV ++ s
  | none =>
    match findPkg raw with
    | some (p, m, s) => p ++ m ++ indentL ++ openV ++ version ++ closeV ++ nlL ++ s
    | none =>
      match findPG raw with
      | some (p, m, s) => p ++ m ++ indentL ++ openV ++ version ++ closeV ++ nlL ++ s
      | none => raw ++ nlL ++ indentL ++ openV ++ version ++ closeV ++ nlL

/-- Model of `read_current_version` in `bump.py` (the re.search group). -/
def read_current_version (raw : List Char) : Option (List Char) :=
  match findFirstVersionMatch raw with
  | some (_, v, _) => some v
  | none => none

/-- Model of `verify` in `bump.py`, applied to the content that was
written: `f"<Version>{version}</Version>" in raw`. -/
def verify (content version : List Char) : Bool :=
  containsSub (openV ++ version ++ closeV) content

/-! ### Scanner specification lemmas -/

theorem stripPre_some {p cs r : List Char} : stripPre p cs = some r ↔ cs = p ++ r := by
  induction p generalizing cs with
  | nil => simp [stripPre]
  | cons a p ih =>
    cases cs with
    | nil => simp [stripPre]
    | cons c cs =>
      by_cases hac : a = c
      · subst hac
        simp [stripPre, ih]
      · simp only [stripPre, if_neg hac, List.cons_append]
        constructor
        · intro hh; exact absurd hh (by simp)
        · intro hh
          injection hh with hh1 hh2
          exact absurd hh1.symm hac

theorem stripPre_append (p r : List Char) : stripPre p (p ++ r) = some r :=
  stripPre_some.mpr rfl

theorem tryMatch_none_of_not_pre {cs : List Char} (h : ¬ openV <+: cs) :
    tryMatchVersionHere cs = none := by
  have hs : stripPre openV cs = none := by
    cases hs : stripPre openV cs with
    | none => rfl
    | some r => exact absurd ⟨r, (stripPre_some.mp hs).symm⟩ h
  simp [tryMatchVersionHere, hs]

theorem tryMatch_some_iff {cs v suf : List Char} :
    tryMatchVersionHere cs = some (v, suf) ↔
      isVersionShape v = true ∧ cs = openV ++ v ++ closeV ++ suf := by
  constructor
  · intro h
    unfold tryMatchVersionHere at h
    split at h
    · exact absurd h (by simp)
    · rename_i r0 hstrip
      split at h
      · exact absurd h (by simp)
      · rename_i c1 r1 h1
        split at h
        · rename_i hc1
          subst hc1
          split at h
          · exact absurd h (by simp)
          · rename_i c2 r2 h2
            split at h
            · rename_i hc2
              subst hc2
              split at h
              · exact absurd h (by simp)
              · rename_i suf0 hclose
                split at h
                · exact absurd h (by simp)
                · rename_i hne
                  injection h with hpair
                  injection hpair with hv hsuf
                  have e1 : r0.takeWhile Char.isDigit ≠ [] := by
                    intro hnil; apply hne; rw [hnil]; simp
                  have e2 : r1.takeWhile Char.isDigit ≠ [] := by
                    intro hnil; apply hne; rw [hnil]; simp
                  have e3 : r2.takeWhile Char.isDigit ≠ [] := by
                    intro hnil; apply hne; rw [hnil]; simp
                  have hd1 : ∀ c ∈ r0.takeWhile Char.isDigit, Char.isDigit c = true :=
                    fun c hc => tw_mem c hc
                  have hd2 : ∀ c ∈ r1.takeWhile Char.isDigit, Char.isDigit c = true :=
                    fun c hc => tw_mem c hc
                  have hd3 : ∀ c ∈ r2.takeWhile Char.isDigit, Char.isDigit c = true :=
                    fun c hc => tw_mem c hc
                  have hshape : isVersionShape v = true := by
                    rw [← hv]
                    exact (isVersionShape_iff _).mpr
                      ⟨r0.takeWhile Char.isDigit, r1.takeWhile Char.isDigit,
                        r2.takeWhile Char.isDigit, rfl, e1, e2, e3, hd1, hd2, hd3⟩
                  refine ⟨hshape, ?_⟩
                  have hcs : cs = openV ++ r0 := stripPre_some.mp hstrip
                  have hr0 := List.takeWhile_append_dropWhile Char.isDigit r0
                  have hr1 := List.takeWhile_append_dropWhile Char.isDigit r1
                  have hr2 := List.takeWhile_append_dropWhile Char.isDigit r2
                  have hr2d : r2.dropWhile Char.isDigit = closeV ++ suf0 :=
                    stripPre_some.mp hclose
                  subst hsuf
                  rw [hcs, ← hv]
                  conv_lhs => rw [← hr0, h1]
                  conv_lhs => rw [← hr1, h2]
                  conv_lhs => rw [← hr2, hr2d]
                  simp [List.append_assoc]
            · exact absurd h (by simp)
        · exact absurd h (by simp)
  · rintro ⟨hshape, rfl⟩
    obtain ⟨d1, d2, d3, hv, h1, h2, h3, hd1, hd2, hd3⟩ := (isVersionShape_iff v).mp hshape
    have hdot : Char.isDigit '.' = false := by decide
    have hlt : Char.isDigit '<' = false := by decide
    have hcl : closeV ++ suf = '<' :: ("/Version>".toList ++ suf) := rfl
    have hv' : v ++ closeV ++ suf =
        d1 ++ '.' :: (d2 ++ '.' :: (d3 ++ ('<' :: ("/Version>".toList ++ suf)))) := by
      rw [hv, ← hcl]
      simp [List.append_assoc]
    have t1 := tw_stop (d2 ++ '.' :: (d3 ++ ('<' :: ("/Version>".toList ++ suf)))) hd1 hdot
    have t2 := tw_stop (d3 ++ ('<' :: ("/Version>".toList ++ suf))) hd2 hdot
    have t3 := tw_stop ("/Version>".toList ++ suf) hd3 hlt
    have hstrip : stripPre openV (openV ++ (v ++ closeV ++ suf)) = some (v ++ closeV ++ suf) :=
      stripPre_append _ _
    have harr : openV ++ v ++ closeV ++ suf = openV ++ (v ++ closeV ++ suf) := by
      simp [List.append_assoc]
    rw [harr]
    unfold tryMatchVersionHere
    rw [hstrip]
    simp only [hv', t1.1, t1.2, t2.1, t2.2, t3.1, t3.2]
    have hclback : ('<' :: ("/Version>".toList ++ suf)) = closeV ++ suf := rfl
    simp only [if_true, hclback, stripPre_append]
    rw [if_neg (by simp [h1, h2, h3])]
    rw [hv]

theorem findFirst_spec {raw p v s : List Char}
    (h : findFirstVersionMatch raw = some (p, v, s)) :
    raw = p ++ openV ++ v ++ closeV ++ s ∧ isVersionShape v = true ∧
    (∀ i, i < p.length → tryMatchVersionHere (raw.drop i) = none) := by
  induction raw generalizing p v s with
  | nil => simp [findFirstVersionMatch] at h
  | cons c rest ih =>
    cases htm : tryMatchVersionHere (c :: rest) with
    | some x =>
      obtain ⟨v1, s1⟩ := x
      simp only [findFirstVersionMatch, htm, Option.some.injEq, Prod.mk.injEq] at h
      obtain ⟨hp, hv, hs⟩ := h
      subst hp; subst hv; subst hs
      obtain ⟨hsh, hcs⟩ := tryMatch_some_iff.mp htm
      refine ⟨by simpa using hcs, hsh, ?_⟩
      intro i hi
      simp at hi
    | none =>
      cases hff : findFirstVersionMatch rest with
      | some y =>
        obtain ⟨p1, v1, s1⟩ := y
        simp only [findFirstVersionMatch, htm, hff, Option.some.injEq, Prod.mk.injEq] at h
        obtain ⟨hp, hv, hs⟩ := h
        subst hv; subst hs
        obtain ⟨ih1, ih2, ih3⟩ := ih hff
        subst hp
        refine ⟨by simp [ih1], ih2, ?_⟩
        intro i hi
        cases i with
        | zero => simpa using htm
        | succ j =>
          have hj : j < p1.length := by simpa using hi
          simpa using ih3 j hj
      | none => simp [findFirstVersionMatch, htm, hff] at h

theorem findFirst_none_of_countZero {raw : List Char}
    (h : countOccur openV raw = 0) : findFirstVersionMatch raw = none := by
  induction raw with
  | nil => rfl
  | cons c rest ih =>
    rw [countOccur_cons] at h
    have hnp : ¬ openV <+: (c :: rest) := by
      intro hp
      rw [if_pos hp] at h
      omega
    have hrest : countOccur openV rest = 0 := by
      rw [if_neg hnp] at h
      simpa using h
    simp [findFirstVersionMatch, tryMatch_none_of_not_pre hnp, ih hrest]

theorem findFirst_append {A B : List Char}
    (h : ∀ i, i < A.length → tryMatchVersionHere (A.drop i ++ B) = none) :
    findFirstVersionMatch (A ++ B) =
      (findFirstVersionMatch B).map (fun x => (A ++ x.1, x.2.1, x.2.2)) := by
  induction A with
  | nil =>
    simp only [List.nil_append]
    cases hb : findFirstVersionMatch B with
    | none => simp
    | some x => obtain ⟨p, v, s⟩ := x; simp
  | cons a A ih =>
    have h0 : tryMatchVersionHere (a :: (A ++ B)) = none := by
      have := h 0 (by simp)
      simpa using this
    have ih' := ih (fun i hi => by
      have := h (i + 1) (by simp only [List.length_cons]; omega)
      simpa using this)
    rw [List.cons_append]
    cases hb : findFirstVersionMatch B with
    | none =>
      rw [hb] at ih'
      simp only [Option.map_none'] at ih'
      simp [findFirstVersionMatch, h0, ih', hb]
    | some x =>
      obtain ⟨p, v, s⟩ := x
      rw [hb] at ih'
      simp only [Option.map_some'] at ih'
      simp [findFirstVersionMatch, h0, ih', hb, List.cons_append]

theorem findSplit_spec {pat s b a : List Char} (h : findSplit pat s = some (b, a)) :
    s = b ++ pat ++ a := by
  induction s generalizing b with
  | nil =>
    unfold findSplit at h
    split at h
    · rename_i hpat
      injection h with hpair
      injection hpair with hb ha
      subst hb; subst ha; subst hpat
      rfl
    · exact absurd h (by simp)
  | cons c rest ih =>
    unfold findSplit at h
    split at h
    · rename_i hp
      injection h with hpair
      injection hpair with hb ha
      subst hb; subst ha
      simpa using pre_full_drop hp
    · rename_i hp
      cases hf : findSplit pat rest with
      | some x =>
        obtain ⟨b1, a1⟩ := x
        rw [hf] at h
        simp only [Option.some.injEq, Prod.mk.injEq] at h
        obtain ⟨hb, ha⟩ := h
        subst hb; subst ha
        simp [ih hf]
      | none => rw [hf] at h; simp at h

theorem tryPkgHere_spec {cs m suf : List Char} (h : tryPkgHere cs = some (m, suf)) :
    cs = m ++ suf ∧
    ∃ body ws, m = openPkg ++ body ++ closePkg ++ ws ∧ (∀ c ∈ ws, isPySpace c = true) := by
  unfold tryPkgHere at h
  split at h
  · exact absurd h (by simp)
  · rename_i r hstrip
    split at h
    · exact absurd h (by simp)
    · rename_i body after hsplit
      simp only [Option.some.injEq, Prod.mk.injEq] at h
      obtain ⟨hm, hsuf⟩ := h
      have hcs : cs = openPkg ++ r := stripPre_some.mp hstrip
      have hr : r = body ++ closePkg ++ after := findSplit_spec hsplit
      have hafter := List.takeWhile_append_dropWhile isPySpace after
      refine ⟨?_, body, after.takeWhile isPySpace, ?_, fun c hc => tw_mem c hc⟩
      · rw [hcs, hr, ← hm, ← hsuf]
        conv_lhs => rw [← hafter]
        simp [List.append_assoc]
      · rw [← hm]

theorem findPkg_spec {raw p m s : List Char} (h : findPkg raw = some (p, m, s)) :
    raw = p ++ m ++ s ∧
    ∃ body ws, m = openPkg ++ body ++ closePkg ++ ws ∧ (∀ c ∈ ws, isPySpace c = true) := by
  induction raw generalizing p with
  | nil => simp [findPkg] at h
  | cons c rest ih =>
    cases htm : tryPkgHere (c :: rest) with
    | some x =>
      obtain ⟨m1, s1⟩ := x
      simp only [findPkg, htm, Option.some.injEq, Prod.mk.injEq] at h
      obtain ⟨hp, hm, hs⟩ := h
      subst hp; subst hm; subst hs
      obtain ⟨hcs, hstruct⟩ := tryPkgHere_spec htm
      exact ⟨by simpa using hcs, hstruct⟩
    | none =>
      cases hff : findPkg rest with
      | some y =>
        obtain ⟨p1, m1, s1⟩ := y
        simp only [findPkg, htm, hff, Option.some.injEq, Prod.mk.injEq] at h
        obtain ⟨hp, hm, hs⟩ := h
        subst hm; subst hs; subst hp
        obtain ⟨ih1, ih2⟩ := ih hff
        exact ⟨by simp [ih1], ih2⟩
      | none => simp [findPkg, htm, hff] at h

theorem glast_exists {l : List Char} (h : l ≠ []) :
    ∃ c, l.getLast? = some c ∧ c ∈ l := by
  induction l with
  | nil => exact absurd rfl h
  | cons a t ih =>
    cases t with
    | nil => exact ⟨a, rfl, by simp⟩
    | cons b t1 =>
      obtain ⟨c, hc, hm⟩ := ih (by simp)
      exact ⟨c, by rw [List.getLast?_cons_cons]; exact hc,
        List.mem_cons_of_mem a hm⟩

theorem shape_char_facts {v : List Char} (h : isVersionShape v = true) :
    (∃ c, v.head? = some c ∧ c.isDigit = true) ∧
    (∃ c, v.getLast? = some c ∧ c.isDigit = true) ∧
    (∀ c ∈ v, c.isDigit = true ∨ c = '.') := by
  obtain ⟨d1, d2, d3, hveq, h1, h2, h3, hd1, hd2, hd3⟩ := (isVersionShape_iff v).mp h
  subst hveq
  refine ⟨?_, ?_, ?_⟩
  · cases d1 with
    | nil => exact absurd rfl h1
    | cons e t => exact ⟨e, by simp, hd1 e (by simp)⟩
  · have hg : (d1 ++ '.' :: (d2 ++ '.' :: d3)).getLast? = d3.getLast? := by
      rw [glast_append (by simp)]
      have h21 : ('.' :: (d2 ++ '.' :: d3)) = ['.'] ++ (d2 ++ '.' :: d3) := rfl
      rw [h21, glast_append (by simp), glast_append (by simp [h3])]
      have h22 : ('.' :: d3) = ['.'] ++ d3 := rfl
      rw [h22, glast_append h3]
    obtain ⟨c, hc, hm⟩ := glast_exists h3
    exact ⟨c, by rw [hg]; exact hc, hd3 c hm⟩
  · intro c hc
    simp only [List.mem_append, List.mem_cons] at hc
    rcases hc with hc | hc | hc | hc | hc
    · exact Or.inl (hd1 c hc)
    · exact Or.inr hc
    · exact Or.inl (hd2 c hc)
    · exact Or.inr hc
    · exact Or.inl (hd3 c hc)

theorem countOccur_append_cons (sub A : List Char) (c : Char) (B : List Char)
    (hc : c ∉ sub) :
    countOccur sub (A ++ (c :: B)) = countOccur sub A + countOccur sub (c :: B) := by
  refine countOccur_append_head sub A (c :: B) ?_
  intro x hx
  simp only [List.head?_cons, Option.some.injEq] at hx
  subst hx
  exact hc

theorem findFirst_cons_of_some {cs v suf : List Char}
    (h : tryMatchVersionHere cs = some (v, suf)) (hne : cs ≠ []) :
    findFirstVersionMatch cs = some ([], v, suf) := by
  cases cs with
  | nil => exact absurd rfl hne
  | cons c rest => simp [findFirstVersionMatch, h]

/-! ### String-level insertion lemma (used by claim C5 below) -/

/-- For content with no occurrence of `<Version>` or `</Version>` at all,
but with a PackageId match, inserting a well-formed version `v` yields
exactly one `<Version>` and one `</Version>` occurrence, placed right
after the PackageId close tag (separated only by the whitespace consumed
by the match plus the fixed indentation), and the regex extractor of the
bump command reads `v` back from the result. -/
theorem insert_after_pkg_spec (raw v P M S : List Char)
    (h0 : countOccur openV raw = 0)
    (hC : countOccur closeV raw = 0)
    (hpkg : findPkg raw = some (P, M, S))
    (hsh : isVersionShape v = true) :
    (∃ body ws, M = openPkg ++ body ++ closePkg ++ ws ∧ (∀ c ∈ ws, isPySpace c = true)) ∧
    insert_or_replace_version raw v =
      P ++ M ++ indentL ++ openV ++ v ++ closeV ++ nlL ++ S ∧
    countOccur openV (insert_or_replace_version raw v) = 1 ∧
    countOccur closeV (insert_or_replace_version raw v) = 1 ∧
    read_current_version (insert_or_replace_version raw v) = some v := by
  have hff : findFirstVersionMatch raw = none := findFirst_none_of_countZero h0
  have hres : insert_or_replace_version raw v =
      P ++ M ++ indentL ++ openV ++ v ++ closeV ++ nlL ++ S := by
    simp [insert_or_replace_version, hff, hpkg]
  obtain ⟨hraw, hstruct⟩ := findPkg_spec hpkg
  obtain ⟨hPM_o, hS_o⟩ := countOccur_append_zero (hraw ▸ h0)
  obtain ⟨hPM_c, hS_c⟩ := countOccur_append_zero (hraw ▸ hC)
  obtain ⟨⟨ch, hh, hhdig⟩, ⟨cl, hl, hldig⟩, hvchars⟩ := shape_char_facts hsh
  have hvne : v ≠ [] := by
    intro hnil; rw [hnil] at hh; simp at hh
  have hind : indentL = ' ' :: "   ".toList := rfl
  have hnl : nlL = ['\n'] := rfl
  have hG : insert_or_replace_version raw v =
      ((P ++ M) ++ indentL) ++ (openV ++ (v ++ (closeV ++ ('\n' :: S)))) := by
    rw [hres, hnl]
    simp [List.append_assoc]
  have hopen_nodig : ∀ c ∈ openV, c.isDigit = false := by decide
  have hclose_nodig : ∀ c ∈ closeV, c.isDigit = false := by decide
  have hlt_not_v : ('<' : Char) ∉ v := by
    intro hm
    rcases hvchars '<' hm with hd | hd
    · exact absurd hd (by decide)
    · exact absurd hd (by decide)
  -- counts of the left block (P ++ M) ++ indentL
  have cPM_ind_o : countOccur openV ((P ++ M) ++ indentL) = 0 := by
    rw [hind, countOccur_append_cons openV (P ++ M) ' ' "   ".toList (by decide), hPM_o]
    decide
  have cPM_ind_c : countOccur closeV ((P ++ M) ++ indentL) = 0 := by
    rw [hind, countOccur_append_cons closeV (P ++ M) ' ' "   ".toList (by decide), hPM_c]
    decide
  -- boundary facts
  have hA2last : ∀ sub : List Char, (' ' : Char) ∉ sub →
      ∀ c, (((P ++ M) ++ indentL)).getLast? = some c → c ∉ sub := by
    intro sub hsp c hc
    rw [glast_append (by decide : indentL ≠ [])] at hc
    have hil : indentL.getLast? = some ' ' := by decide
    rw [hil] at hc
    simp only [Option.some.injEq] at hc
    rw [← hc]
    exact hsp
  have hYhead : (v ++ (closeV ++ ('\n' :: S))).head? = some ch := by
    cases v with
    | nil => exact absurd rfl hvne
    | cons e t =>
      have he : e = ch := by
        have h1 := hh
        simp only [List.head?_cons, Option.some.injEq] at h1
        exact h1
      rw [List.cons_append]
      simp [he]
  have hvlast : ∀ sub : List Char, (∀ c ∈ sub, c.isDigit = false) →
      ∀ c, v.getLast? = some c → c ∉ sub := by
    intro sub hnod c hc
    rw [hl] at hc
    simp only [Option.some.injEq] at hc
    rw [← hc]
    intro hmem
    have := hnod cl hmem
    rw [hldig] at this
    exact absurd this (by simp)
  have hheadY : ∀ sub : List Char, (∀ c ∈ sub, c.isDigit = false) →
      ∀ c, (v ++ (closeV ++ ('\n' :: S))).head? = some c → c ∉ sub := by
    intro sub hnod c hc
    rw [hYhead] at hc
    simp only [Option.some.injEq] at hc
    rw [← hc]
    intro hmem
    have := hnod ch hmem
    rw [hhdig] at this
    exact absurd this (by simp)
  have hnopre_o : ¬ openV <+: ('\n' :: S) := by
    intro hp
    have hov : openV = '<' :: "Version>".toList := rfl
    rw [hov, pre_cons] at hp
    exact absurd hp.1 (by decide)
  have hnopre_c : ¬ closeV <+: ('\n' :: S) := by
    intro hp
    have hcv : closeV = '<' :: "/Version>".toList := rfl
    rw [hcv, pre_cons] at hp
    exact absurd hp.1 (by decide)
  -- openV count
  have cnt_o : countOccur openV (insert_or_replace_version raw v) = 1 := by
    rw [hG, countOccur_append_last openV _ _ (hA2last openV (by decide)), cPM_ind_o]
    rw [countOccur_append_head openV openV _ (hheadY openV hopen_nodig)]
    have c1 : countOccur openV openV = 1 := by decide
    rw [c1, countOccur_append_last openV v _ (hvlast openV hopen_nodig)]
    have c2 : countOccur openV v = 0 :=
      countOccur_zero_of_not_mem (by decide : ('<' : Char) ∈ openV) hlt_not_v
    rw [c2, countOccur_append_cons openV closeV '\n' S (by decide)]
    have c3 : countOccur openV closeV = 0 := by decide
    rw [c3, countOccur_cons, if_neg hnopre_o, hS_o]
  -- closeV count
  have cnt_c : countOccur closeV (insert_or_replace_version raw v) = 1 := by
    rw [hG, countOccur_append_last closeV _ _ (hA2last closeV (by decide)), cPM_ind_c]
    rw [countOccur_append_head closeV openV _ (hheadY closeV hclose_nodig)]
    have c1 : countOccur closeV openV = 0 := by decide
    rw [c1, countOccur_append_last closeV v _ (hvlast closeV hclose_nodig)]
    have c2 : countOccur closeV v = 0 :=
      countOccur_zero_of_not_mem (by decide : ('<' : Char) ∈ closeV) hlt_not_v
    rw [c2, countOccur_append_cons closeV closeV '\n' S (by decide)]
    have c3 : countOccur closeV closeV = 1 := by decide
    rw [c3, countOccur_cons, if_neg hnopre_c, hS_c]
  -- extraction of the inserted version
  have hB2ne : openV ++ (v ++ (closeV ++ ('\n' :: S))) ≠ [] := by
    intro hnil
    have hz := congrArg List.length hnil
    rw [List.length_append] at hz
    simp only [List.length_nil] at hz
    have h9 : openV.length = 9 := by decide
    omega
  have htmB : tryMatchVersionHere (openV ++ (v ++ (closeV ++ ('\n' :: S)))) =
      some (v, '\n' :: S) :=
    tryMatch_some_iff.mpr ⟨hsh, by simp [List.append_assoc]⟩
  have hffB : findFirstVersionMatch (openV ++ (v ++ (closeV ++ ('\n' :: S)))) =
      some ([], v, '\n' :: S) := findFirst_cons_of_some htmB hB2ne
  have hB2h : (openV ++ (v ++ (closeV ++ ('\n' :: S)))).head? = some '<' := rfl
  have hcond : ∀ i, i < ((P ++ M) ++ indentL).length →
      tryMatchVersionHere (((P ++ M) ++ indentL).drop i ++
        (openV ++ (v ++ (closeV ++ ('\n' :: S))))) = none := by
    intro i hi
    apply tryMatch_none_of_not_pre
    intro hp
    by_cases hlen : openV.length ≤ (((P ++ M) ++ indentL).drop i).length
    · have hpre := pre_of_pre_append hp hlen
      have hpos := countOccur_pos_of_pre_drop hpre hi
      rw [cPM_ind_o] at hpos
      omega
    · have hlt := Nat.lt_of_not_le hlen
      obtain ⟨hp1, hp2⟩ := pre_tail_pre hp hlt
      have htne : openV.drop (((P ++ M) ++ indentL).drop i).length ≠ [] := by
        intro hnil
        have hz := congrArg List.length hnil
        rw [List.length_drop] at hz
        simp only [List.length_nil] at hz
        omega
      have hhd := pre_head hp2 htne
      rw [hB2h] at hhd
      have hk1 : 0 < (((P ++ M) ++ indentL).drop i).length := by
        have hne2 : ((P ++ M) ++ indentL).drop i ≠ [] := by
          intro hnil
          have hz := congrArg List.length hnil
          rw [List.length_drop] at hz
          simp only [List.length_nil] at hz
          omega
        exact List.length_pos.mpr hne2
      have hdec : ∀ k, k < openV.length → 0 < k → (openV.drop k).head? ≠ some '<' := by
        decide
      exact hdec _ hlt hk1 hhd.symm
  have hread : read_current_version (insert_or_replace_version raw v) = some v := by
    rw [hG, read_current_version, findFirst_append hcond, hffB]
    rfl
  exact ⟨hstruct, hres, cnt_o, cnt_c, hread⟩

/-! ### Claims C4 and C10 -/

/-- C4: when the content contains at least one `<Version>X.Y.Z</Version>`
tag, the transform rewrites only the payload of the leftmost one (no match
begins before it) with the given value `v` — digits in `v` included — and
the entire remainder after the first tag, further tags included, is kept
byte for byte. -/
theorem claim4_first_occurrence_replace (raw v p old s : List Char)
    (h : findFirstVersionMatch raw = some (p, old, s)) :
    raw = p ++ openV ++ old ++ closeV ++ s ∧
    insert_or_replace_version raw v = p ++ openV ++ v ++ closeV ++ s ∧
    (∀ i, i < p.length → tryMatchVersionHere (raw.drop i) = none) := by
  obtain ⟨h1, hsh, h3⟩ := findFirst_spec h
  refine ⟨h1, ?_, h3⟩
  simp [insert_or_replace_version, h]

/-- Witness for C4: content with two identical `<Version>1.0.0</Version>`
tags; replacing with `2.0.0` changes only the first, the second stays. -/
theorem claim4_first_occurrence_replace_witness :
    "<a><Version>1.0.0</Version><Version>1.0.0</Version></a>".toList =
      "<a>".toList ++ openV ++ "1.0.0".toList ++ closeV ++
        "<Version>1.0.0</Version></a>".toList ∧
    insert_or_replace_version
        "<a><Version>1.0.0</Version><Version>1.0.0</Version></a>".toList
        "2.0.0".toList =
      "<a>".toList ++ openV ++ "2.0.0".toList ++ closeV ++
        "<Version>1.0.0</Version></a>".toList ∧
    (∀ i, i < ("<a>".toList).length →
      tryMatchVersionHere
        ("<a><Version>1.0.0</Version><Version>1.0.0</Version></a>".toList.drop i) = none) :=
  claim4_first_occurrence_replace _ _ _ _ _ (by decide)

/-- C10: whatever the input content and version, every branch of the
transform leaves the literal `<Version>v</Version>` in its output, so the
substring check of `verify` holds on the in-memory result. -/
theorem claim10_transform_establishes_tag (raw v : List Char) :
    verify (insert_or_replace_version raw v) v = true := by
  unfold verify containsSub
  rw [decide_eq_true_eq]
  cases h1 : findFirstVersionMatch raw with
  | some x =>
    obtain ⟨p, vv, s⟩ := x
    simp only [insert_or_replace_version, h1]
    exact ⟨p, s, by simp [List.append_assoc]⟩
  | none =>
    cases h2 : findPkg raw with
    | some x =>
      obtain ⟨p, m, s⟩ := x
      simp only [insert_or_replace_version, h1, h2]
      exact ⟨p ++ m ++ indentL, nlL ++ s, by simp [List.append_assoc]⟩
    | none =>
      cases h3 : findPG raw with
      | some x =>
        obtain ⟨p, m, s⟩ := x
        simp only [insert_or_replace_version, h1, h2, h3]
        exact ⟨p ++ m ++ indentL, nlL ++ s, by simp [List.append_assoc]⟩
      | none =>
        simp only [insert_or_replace_version, h1, h2, h3]
        exact ⟨raw ++ nlL ++ indentL, nlL, by simp [List.append_assoc]⟩

/-! ### XML model for `read_version_from_csproj` in `tag.py` -/

/-- A forest of XML elements, in document order: either empty, or a first
element (tag, text, children) followed by the remaining siblings. -/
inductive XmlF where
  | nilE : XmlF
  | consE (tag : List Char) (text : Option (List Char)) (children rest : XmlF)
deriving DecidableEq

/-- A single XML element (the shape ElementTree hands back). -/
structure XmlElem where
  tag : List Char
  text : Option (List Char)
  children : XmlF
deriving DecidableEq

/-- All elements of a forest in document (pre-) order, as `iter` yields
them below a node. -/
def allElems : XmlF → List XmlElem
  | .nilE => []
  | .consE t x cs rest => ⟨t, x, cs⟩ :: (allElems cs ++ allElems rest)

/-- `element.find(tag)`: first direct child with the given tag. -/
def findChildTag (t : List Char) : XmlF → Option XmlElem
  | .nilE => none
  | .consE tg x cs rest => if tg = t then some ⟨tg, x, cs⟩ else findChildTag t rest

/-- Model of Python's `str.strip()` on ASCII text. -/
def pyStrip (cs : List Char) : List Char :=
  ((cs.dropWhile isPySpace).reverse.dropWhile isPySpace).reverse

/-- The primary loop of `read_version_from_csproj`: scan PropertyGroup
elements in document order, and at the first one whose `Version` child has
truthy text, take the stripped text and break. -/
def firstPGHit : List XmlElem → Option (List Char)
  | [] => none
  | pg :: rest =>
    match findChildTag "Version".toList pg.children with
    | some ve =>
      match ve.text with
      | some t => if t = [] then firstPGHit rest else some (pyStrip t)
      | none => firstPGHit rest
    | none => firstPGHit rest

/-- Value the primary path returns, `none` when the loop found nothing
truthy or the stripped text was empty (`if version:` fails). -/
def primaryResult (root : XmlElem) : Option (List Char) :=
  match firstPGHit ((allElems root.children).filter
      (fun e => e.tag = "PropertyGroup".toList)) with
  | some ver => if ver = [] then none else some ver
  | none => none

/-- The fallback loop: first element (root included, document order) whose
tag ends in `Version`, with truthy text and non-empty stripped text. -/
def fallbackScan : List XmlElem → Option (List Char)
  | [] => none
  | e :: rest =>
    match e.text with
    | some t =>
      if "Version".toList.isSuffixOf e.tag && !t.isEmpty then
        if pyStrip t = [] then fallbackScan rest else some (pyStrip t)
      else fallbackScan rest
    | none => fallbackScan rest

def fallbackResult (root : XmlElem) : Option (List Char) :=
  fallbackScan (root :: allElems root.children)

/-- Model of `read_version_from_csproj` in `tag.py` on an already-parsed
tree: primary path, then fallback path, else `error(...)` (exit 1). -/
def read_version_from_csproj (path : List Char) (root : XmlElem) :
    Except (List Char) (List Char) :=
  match primaryResult root with
  | some ver => .ok ver
  | none =>
    match fallbackResult root with
    | some ver => .ok ver
    | none => .error ("Could not find <Version> property in '".toList ++ path ++ "'.".toList)

/-! ### Claim C3 -/

/-- Counterexample to C3 as stated: a well-formed descriptor on which both
extraction paths find nothing makes `read_version_from_csproj` in `tag.py`
produce a fatal error — it does not return none and leave the decision to
the caller. -/
theorem claim3_cex :
    primaryResult ⟨"Project".toList, none,
      .consE "PropertyGroup".toList none .nilE .nilE⟩ = none ∧
    fallbackResult ⟨"Project".toList, none,
      .consE "PropertyGroup".toList none .nilE .nilE⟩ = none ∧
    read_version_from_csproj "proj.csproj".toList
      ⟨"Project".toList, none, .consE "PropertyGroup".toList none .nilE .nilE⟩ =
      .error "Could not find <Version> property in 'proj.csproj'.".toList := by
  refine ⟨by decide, by decide, by rfl⟩

/-- C3 (amended): when neither path finds a value, the bump command's
regex extractor returns none (its caller decides), while the tag command's
XML extractor raises the fatal `Could not find <Version>` error naming
the file. -/
theorem claim3_absence_behavior (raw path : List Char) (root : XmlElem)
    (h1 : findFirstVersionMatch raw = none)
    (h2 : primaryResult root = none)
    (h3 : fallbackResult root = none) :
    read_current_version raw = none ∧
    read_version_from_csproj path root =
      .error ("Could not find <Version> property in '".toList ++ path ++ "'.".toList) := by
  constructor
  · simp [read_current_version, h1]
  · simp [read_version_from_csproj, h2, h3]

/-- Witness for C3 (amended) at concrete empty descriptors. -/
theorem claim3_absence_behavior_witness :
    read_current_version "<Project><PropertyGroup></PropertyGroup></Project>".toList = none ∧
    read_version_from_csproj "app.csproj".toList
      ⟨"Project".toList, none, .consE "PropertyGroup".toList none .nilE .nilE⟩ =
      .error ("Could not find <Version> property in '".toList ++
        "app.csproj".toList ++ "'.".toList) :=
  claim3_absence_behavior _ _ _ (by decide) (by decide) (by decide)

/-! ### Decorated XML trees with serialization (for claim C5's round trip)

ElementTree also stores, for every element, the `tail` text that follows
its close tag.  The extractor never reads tails, so the C3 model above
omits them; for C5's round trip the serialized layout matters, so here
the same trees are decorated with tails, with an erasure map back to the
extractor's view. -/

/-- Text content of an optional text node (absent text serializes to
nothing). -/
def textOf : Option (List Char) → List Char
  | none => []
  | some t => t

/-- A forest of XML elements decorated with tail text, in document
order. -/
inductive XmlD where
  | dnil : XmlD
  | dcons (tag : List Char) (text : Option (List Char)) (children : XmlD)
      (tail : List Char) (rest : XmlD)
deriving DecidableEq

/-- Forest concatenation. -/
def appendD : XmlD → XmlD → XmlD
  | .dnil, b => b
  | .dcons t x cs tl rest, b => .dcons t x cs tl (appendD rest b)

def openTagS (t : List Char) : List Char := '<' :: (t ++ ">".toList)

def closeTagS (t : List Char) : List Char := '<' :: ('/' :: (t ++ ">".toList))

/-- Serialization of a decorated forest back to markup text. -/
def serializeD : XmlD → List Char
  | .dnil => []
  | .dcons t x cs tl rest =>
      openTagS t ++ (textOf x ++ (serializeD cs ++ (closeTagS t ++ (tl ++ serializeD rest))))

/-- Drop the tail decorations, yielding the tree the extractor sees. -/
def eraseD : XmlD → XmlF
  | .dnil => .nilE
  | .dcons t x cs _ rest => .consE t x (eraseD cs) (eraseD rest)

/-- A decorated document root. -/
structure XmlElemD where
  tag : List Char
  text : Option (List Char)
  children : XmlD
deriving DecidableEq

def eraseElem (e : XmlElemD) : XmlElem := ⟨e.tag, e.text, eraseD e.children⟩

/-- Serialization of a whole document. -/
def serializeElemD (e : XmlElemD) : List Char :=
  openTagS e.tag ++ (textOf e.text ++ (serializeD e.children ++ closeTagS e.tag))

/-- One-hole context selecting a forest suffix somewhere in a document:
`stop` is the hole, `skipDir` passes over one sibling element, `enter`
descends into an element's children. -/
inductive SCtx where
  | stop : SCtx
  | skipDir (tag : List Char) (text : Option (List Char)) (children : XmlD)
      (tail : List Char) (c : SCtx) : SCtx
  | enter (tag : List Char) (text : Option (List Char)) (tail : List Char)
      (c : SCtx) (rest : XmlD) : SCtx
deriving DecidableEq

def plug : SCtx → XmlD → XmlD
  | .stop, f => f
  | .skipDir t x cs tl c, f => .dcons t x cs tl (plug c f)
  | .enter t x tl c rest, f => .dcons t x (plug c f) tl rest

/-- Serialized text preceding the hole. -/
def ctxPre : SCtx → List Char
  | .stop => []
  | .skipDir t x cs tl c =>
      (openTagS t ++ (textOf x ++ (serializeD cs ++ (closeTagS t ++ tl)))) ++ ctxPre c
  | .enter t x _ c _ => (openTagS t ++ textOf x) ++ ctxPre c

/-- Serialized text following the hole. -/
def ctxPost : SCtx → List Char
  | .stop => []
  | .skipDir _ _ _ _ c => ctxPost c
  | .enter t _ tl c rest => ctxPost c ++ (closeTagS t ++ (tl ++ serializeD rest))

theorem openTagS_version : openTagS "Version".toList = openV := rfl

theorem closeTagS_version : closeTagS "Version".toList = closeV := rfl

theorem openTagS_pkg : openTagS "PackageId".toList = openPkg := rfl

theorem closeTagS_pkg : closeTagS "PackageId".toList = closePkg := rfl

theorem serializeD_append (a b : XmlD) :
    serializeD (appendD a b) = serializeD a ++ serializeD b := by
  induction a with
  | dnil => simp [appendD, serializeD]
  | dcons t x cs tl rest ihc ihr => simp [appendD, serializeD, ihr, List.append_assoc]

theorem serialize_plug (C : SCtx) (f : XmlD) :
    serializeD (plug C f) = ctxPre C ++ (serializeD f ++ ctxPost C) := by
  induction C with
  | stop => simp [plug, ctxPre, ctxPost]
  | skipDir t x cs tl c ih => simp [plug, ctxPre, ctxPost, serializeD, ih, List.append_assoc]
  | enter t x tl c rest ih => simp [plug, ctxPre, ctxPost, serializeD, ih, List.append_assoc]

/-- No element anywhere in the forest is tagged exactly `Version`. -/
def noVer : XmlD → Bool
  | .dnil => true
  | .dcons t _ cs _ rest =>
      if t = "Version".toList then false else noVer cs && noVer rest

/-- No frame of the context carries a `Version`-tagged element. -/
def ctxNoVer : SCtx → Bool
  | .stop => true
  | .skipDir t _ cs _ c =>
      if t = "Version".toList then false else noVer cs && ctxNoVer c
  | .enter t _ _ c rest =>
      if t = "Version".toList then false else noVer rest && ctxNoVer c

theorem infix_countOccur_pos {sub s : List Char} (hne : sub ≠ [])
    (h : sub <:+: s) : 0 < countOccur sub s := by
  obtain ⟨x, y, hxy⟩ := h
  have hp : sub <+: s.drop x.length := by
    rw [← hxy, List.append_assoc, List.drop_left]
    exact ⟨y, rfl⟩
  have hx : x.length < s.length := by
    rw [← hxy]
    simp only [List.length_append]
    have : 0 < sub.length := List.length_pos.mpr hne
    omega
  exact countOccur_pos_of_pre_drop hp hx

theorem count0_noVer {d : XmlD} (h : countOccur openV (serializeD d) = 0) :
    noVer d = true := by
  induction d with
  | dnil => rfl
  | dcons t x cs tl rest ihc ihr =>
    by_cases ht : t = "Version".toList
    · exfalso
      subst ht
      have hpre : openV <:+: serializeD (.dcons "Version".toList x cs tl rest) := by
        refine ⟨[], textOf x ++ (serializeD cs ++
          (closeTagS "Version".toList ++ (tl ++ serializeD rest))), ?_⟩
        rw [serializeD, openTagS_version]
        simp
      have := infix_countOccur_pos (by decide) hpre
      omega
    · rw [serializeD] at h
      obtain ⟨_, h2⟩ := countOccur_append_zero h
      obtain ⟨_, h3⟩ := countOccur_append_zero h2
      obtain ⟨hcs, h4⟩ := countOccur_append_zero h3
      obtain ⟨_, h5⟩ := countOccur_append_zero h4
      obtain ⟨_, hrest⟩ := countOccur_append_zero h5
      rw [noVer, if_neg ht]
      simp [ihc hcs, ihr hrest]

theorem noVer_append {a b : XmlD} (h : noVer (appendD a b) = true) :
    noVer a = true ∧ noVer b = true := by
  induction a with
  | dnil => exact ⟨rfl, h⟩
  | dcons t x cs tl rest ihc ihr =>
    rw [appendD, noVer] at h
    by_cases ht : t = "Version".toList
    · rw [if_pos ht] at h; exact absurd h (by simp)
    · rw [if_neg ht] at h
      simp only [Bool.and_eq_true] at h
      obtain ⟨hcs, hr⟩ := h
      obtain ⟨hrest, hb⟩ := ihr hr
      refine ⟨?_, hb⟩
      rw [noVer, if_neg ht]
      simp [hcs, hrest]

theorem noVer_plug {C : SCtx} {f : XmlD} (h : noVer (plug C f) = true) :
    ctxNoVer C = true ∧ noVer f = true := by
  induction C with
  | stop => exact ⟨rfl, h⟩
  | skipDir t x cs tl c ih =>
    rw [plug, noVer] at h
    by_cases ht : t = "Version".toList
    · rw [if_pos ht] at h; exact absurd h (by simp)
    · rw [if_neg ht] at h
      simp only [Bool.and_eq_true] at h
      obtain ⟨hcs, hp⟩ := h
      obtain ⟨hc, hf⟩ := ih hp
      refine ⟨?_, hf⟩
      rw [ctxNoVer, if_neg ht]
      simp [hcs, hc]
  | enter t x tl c rest ih =>
    rw [plug, noVer] at h
    by_cases ht : t = "Version".toList
    · rw [if_pos ht] at h; exact absurd h (by simp)
    · rw [if_neg ht] at h
      simp only [Bool.and_eq_true] at h
      obtain ⟨hp, hrest⟩ := h
      obtain ⟨hc, hf⟩ := ih hp
      refine ⟨?_, hf⟩
      rw [ctxNoVer, if_neg ht]
      simp [hrest, hc]

theorem findChild_none_of_noVer {g : XmlD} (h : noVer g = true) :
    findChildTag "Version".toList (eraseD g) = none := by
  induction g with
  | dnil => rfl
  | dcons t x cs tl rest ihc ihr =>
    rw [noVer] at h
    by_cases ht : t = "Version".toList
    · rw [if_pos ht] at h; exact absurd h (by simp)
    · rw [if_neg ht] at h
      simp only [Bool.and_eq_true] at h
      rw [eraseD, findChildTag, if_neg ht]
      exact ihr h.2

theorem elems_noVer {g : XmlD} (h : noVer g = true) :
    ∀ e ∈ allElems (eraseD g), findChildTag "Version".toList e.children = none := by
  induction g with
  | dnil => intro e he; simp [eraseD, allElems] at he
  | dcons t x cs tl rest ihc ihr =>
    intro e he
    rw [noVer] at h
    by_cases ht : t = "Version".toList
    · rw [if_pos ht] at h; exact absurd h (by simp)
    · rw [if_neg ht] at h
      simp only [Bool.and_eq_true] at h
      rw [eraseD, allElems] at he
      simp only [List.mem_cons, List.mem_append] at he
      rcases he with rfl | he | he
      · exact findChild_none_of_noVer h.1
      · exact ihc h.1 e he
      · exact ihr h.2 e he

theorem firstPGHit_cons_skip {e : XmlElem} {L : List XmlElem}
    (h : findChildTag "Version".toList e.children = none) :
    firstPGHit (e :: L) = firstPGHit L := by
  rw [firstPGHit, h]

theorem firstPGHit_append_skip {L1 L2 : List XmlElem}
    (h : ∀ e ∈ L1, findChildTag "Version".toList e.children = none) :
    firstPGHit (L1 ++ L2) = firstPGHit L2 := by
  induction L1 with
  | nil => rfl
  | cons e L ih =>
    rw [List.cons_append, firstPGHit_cons_skip (h e (by simp))]
    exact ih (fun x hx => h x (List.mem_cons_of_mem e hx))

theorem firstPGHit_cons_found {e : XmlElem} {ve : XmlElem} (L : List XmlElem)
    (hf : findChildTag "Version".toList e.children = some ve) :
    firstPGHit (e :: L) =
      (match ve.text with
        | some t => if t = [] then firstPGHit L else some (pyStrip t)
        | none => firstPGHit L) := by
  rw [firstPGHit, hf]

theorem firstPGHit_cons_hit {e ve : XmlElem} {L : List XmlElem} {tv : List Char}
    (hf : findChildTag "Version".toList e.children = some ve)
    (hvx : ve.text = some tv) (htv : tv ≠ []) :
    firstPGHit (e :: L) = some (pyStrip tv) := by
  rw [firstPGHit_cons_found L hf, hvx]
  show (if tv = [] then firstPGHit L else some (pyStrip tv)) = some (pyStrip tv)
  rw [if_neg htv]

theorem firstPGHit_append_some {L1 L2 : List XmlElem} {r : List Char}
    (h : firstPGHit L1 = some r) : firstPGHit (L1 ++ L2) = some r := by
  induction L1 with
  | nil => simp [firstPGHit] at h
  | cons e L ih =>
    rw [List.cons_append]
    cases hf : findChildTag "Version".toList e.children with
    | none =>
      rw [firstPGHit_cons_skip hf] at h ⊢
      exact ih h
    | some ve =>
      cases hx : ve.text with
      | none =>
        have h1 : firstPGHit L = some r := by
          rw [firstPGHit_cons_found L hf, hx] at h
          exact h
        rw [firstPGHit_cons_found (L ++ L2) hf, hx]
        exact ih h1
      | some tx =>
        have hs1 : firstPGHit (e :: L) =
            (if tx = [] then firstPGHit L else some (pyStrip tx)) := by
          rw [firstPGHit_cons_found L hf, hx]
        have hs2 : firstPGHit (e :: (L ++ L2)) =
            (if tx = [] then firstPGHit (L ++ L2) else some (pyStrip tx)) := by
          rw [firstPGHit_cons_found (L ++ L2) hf, hx]
        rw [hs1] at h
        rw [hs2]
        by_cases hte : tx = []
        · rw [if_pos hte] at h ⊢
          exact ih h
        · rw [if_neg hte] at h ⊢
          exact h

theorem findChildTag_appendD {a b : XmlD} (h : noVer a = true) :
    findChildTag "Version".toList (eraseD (appendD a b)) =
      findChildTag "Version".toList (eraseD b) := by
  induction a with
  | dnil => rfl
  | dcons t x cs tl rest ihc ihr =>
    rw [noVer] at h
    by_cases ht : t = "Version".toList
    · rw [if_pos ht] at h; exact absurd h (by simp)
    · rw [if_neg ht] at h
      simp only [Bool.and_eq_true] at h
      rw [appendD, eraseD, findChildTag, if_neg ht]
      exact ihr h.2

theorem findChild_plug_none {fTop : XmlD}
    (hTop : findChildTag "Version".toList (eraseD fTop) = none) :
    ∀ C : SCtx, ctxNoVer C = true →
      findChildTag "Version".toList (eraseD (plug C fTop)) = none := by
  intro C
  induction C with
  | stop => intro _; exact hTop
  | skipDir t x cs tl c ih =>
    intro hc
    rw [ctxNoVer] at hc
    by_cases ht : t = "Version".toList
    · rw [if_pos ht] at hc; exact absurd hc (by simp)
    · rw [if_neg ht] at hc
      simp only [Bool.and_eq_true] at hc
      rw [plug, eraseD, findChildTag, if_neg ht]
      exact ih hc.2
  | enter t x tl c rest ih =>
    intro hc
    rw [ctxNoVer] at hc
    by_cases ht : t = "Version".toList
    · rw [if_pos ht] at hc; exact absurd hc (by simp)
    · rw [if_neg ht] at hc
      simp only [Bool.and_eq_true] at hc
      rw [plug, eraseD, findChildTag, if_neg ht]
      exact findChild_none_of_noVer hc.1

/-- The primary extraction path on any document that contains, somewhere,
a PropertyGroup whose children yield a truthy-text `Version` child, with
no `Version`-tagged element anywhere else: the scan hits exactly that
PropertyGroup, wherever the context places it. -/
theorem ext_main {kids pgRest : XmlD} {pgText : Option (List Char)}
    {pgTail tv : List Char} {ve : XmlElem}
    (hpgRest : noVer pgRest = true)
    (hfind : findChildTag "Version".toList (eraseD kids) = some ve)
    (hvx : ve.text = some tv) (htv : tv ≠ []) :
    ∀ C : SCtx, ctxNoVer C = true →
      firstPGHit ((allElems (eraseD (plug C (.dcons "PropertyGroup".toList pgText kids
          pgTail pgRest)))).filter (fun e => e.tag = "PropertyGroup".toList)) =
        some (pyStrip tv) := by
  have hTopNone : findChildTag "Version".toList
      (eraseD (.dcons "PropertyGroup".toList pgText kids pgTail pgRest)) = none := by
    rw [eraseD, findChildTag, if_neg (by decide)]
    exact findChild_none_of_noVer hpgRest
  intro C
  induction C with
  | stop =>
    intro _
    rw [plug, eraseD, allElems, List.filter_cons]
    rw [if_pos (by simp)]
    rw [List.filter_append]
    exact firstPGHit_cons_hit hfind hvx htv
  | skipDir t x cs tl c ih =>
    intro hc
    rw [ctxNoVer] at hc
    by_cases ht : t = "Version".toList
    · rw [if_pos ht] at hc; exact absurd hc (by simp)
    · rw [if_neg ht] at hc
      simp only [Bool.and_eq_true] at hc
      obtain ⟨hcs, hc2⟩ := hc
      rw [plug, eraseD, allElems, List.filter_cons, List.filter_append]
      have hmain : firstPGHit
          (((allElems (eraseD cs)).filter (fun e => e.tag = "PropertyGroup".toList)) ++
            ((allElems (eraseD (plug c (.dcons "PropertyGroup".toList pgText kids
              pgTail pgRest)))).filter (fun e => e.tag = "PropertyGroup".toList))) =
          some (pyStrip tv) := by
        rw [firstPGHit_append_skip
          (fun e he => elems_noVer hcs e (List.mem_of_mem_filter he))]
        exact ih hc2
      split
      · rw [firstPGHit_cons_skip (findChild_none_of_noVer hcs)]
        exact hmain
      · exact hmain
  | enter t x tl c rest ih =>
    intro hc
    rw [ctxNoVer] at hc
    by_cases ht : t = "Version".toList
    · rw [if_pos ht] at hc; exact absurd hc (by simp)
    · rw [if_neg ht] at hc
      simp only [Bool.and_eq_true] at hc
      obtain ⟨hrest, hc2⟩ := hc
      rw [plug, eraseD, allElems, List.filter_cons, List.filter_append]
      have hmain : firstPGHit
          (((allElems (eraseD (plug c (.dcons "PropertyGroup".toList pgText kids
              pgTail pgRest)))).filter (fun e => e.tag = "PropertyGroup".toList)) ++
            ((allElems (eraseD rest)).filter (fun e => e.tag = "PropertyGroup".toList))) =
          some (pyStrip tv) :=
        firstPGHit_append_some (ih hc2)
      split
      · rw [firstPGHit_cons_skip (findChild_plug_none hTopNone c hc2)]
        exact hmain
      · exact hmain

/-! ### Locating the PackageId match inside a serialized document -/

theorem no_match_before {pat A Q : List Char} {a : Char}
    (hA : countOccur pat A = 0)
    (hQ : Q.head? = some a)
    (hk : ∀ k, k < pat.length → 0 < k → (pat.drop k).head? ≠ some a) :
    ∀ i, i < A.length → ¬ pat <+: (A.drop i ++ Q) := by
  intro i hi hp
  by_cases hl : pat.length ≤ (A.drop i).length
  · have hpre := pre_of_pre_append hp hl
    have hpos := countOccur_pos_of_pre_drop hpre hi
    omega
  · have hlt := Nat.lt_of_not_le hl
    obtain ⟨hp1, hp2⟩ := pre_tail_pre hp hlt
    have htne : pat.drop (A.drop i).length ≠ [] := by
      intro hnil
      have hz := congrArg List.length hnil
      rw [List.length_drop] at hz
      simp only [List.length_nil] at hz
      omega
    have hhd := pre_head hp2 htne
    rw [hQ] at hhd
    have hk1 : 0 < (A.drop i).length := by
      have hne2 : A.drop i ≠ [] := by
        intro hnil
        have hz := congrArg List.length hnil
        rw [List.length_drop] at hz
        simp only [List.length_nil] at hz
        omega
      exact List.length_pos.mpr hne2
    exact hk _ hlt hk1 hhd.symm

theorem findSplit_exact {pat z : List Char} (hne : pat ≠ []) :
    ∀ b : List Char, (∀ i, i < b.length → ¬ pat <+: (b.drop i ++ (pat ++ z))) →
    findSplit pat (b ++ (pat ++ z)) = some (b, z) := by
  intro b
  induction b with
  | nil =>
    intro _
    simp only [List.nil_append]
    cases hpat : pat with
    | nil => exact absurd hpat hne
    | cons p ps =>
      subst hpat
      rw [List.cons_append, findSplit, if_pos ⟨z, by simp⟩]
      simp [List.drop_left]
  | cons c b ih =>
    intro h
    rw [List.cons_append, findSplit]
    rw [if_neg (by simpa using h 0 (by simp))]
    rw [ih (fun i hi => by
      have := h (i + 1) (by simp only [List.length_cons]; omega)
      simpa using this)]

theorem tryPkg_none_of_not_pre {cs : List Char} (h : ¬ openPkg <+: cs) :
    tryPkgHere cs = none := by
  have hs : stripPre openPkg cs = none := by
    cases hs : stripPre openPkg cs with
    | none => rfl
    | some r => exact absurd ⟨r, (stripPre_some.mp hs).symm⟩ h
  simp [tryPkgHere, hs]

theorem findPkg_append {A B : List Char}
    (h : ∀ i, i < A.length → tryPkgHere (A.drop i ++ B) = none) :
    findPkg (A ++ B) = (findPkg B).map (fun x => (A ++ x.1, x.2.1, x.2.2)) := by
  induction A with
  | nil =>
    simp only [List.nil_append]
    cases hb : findPkg B with
    | none => simp
    | some x => obtain ⟨p, m, s⟩ := x; simp
  | cons a A ih =>
    have h0 : tryPkgHere (a :: (A ++ B)) = none := by
      have := h 0 (by simp)
      simpa using this
    have ih' := ih (fun i hi => by
      have := h (i + 1) (by simp only [List.length_cons]; omega)
      simpa using this)
    rw [List.cons_append]
    cases hb : findPkg B with
    | none =>
      rw [hb] at ih'
      simp only [Option.map_none'] at ih'
      simp [findPkg, h0, ih', hb]
    | some x =>
      obtain ⟨p, m, s⟩ := x
      rw [hb] at ih'
      simp only [Option.map_some'] at ih'
      simp [findPkg, h0, ih', hb, List.cons_append]

theorem findPkg_cons_of_some {cs m suf : List Char}
    (h : tryPkgHere cs = some (m, suf)) (hne : cs ≠ []) :
    findPkg cs = some ([], m, suf) := by
  cases cs with
  | nil => exact absurd rfl hne
  | cons c rest => simp [findPkg, h]

/-! ### Whitespace runs across serialized boundaries -/

theorem dropWhile_head_false {p : Char → Bool} :
    ∀ {T : List Char} {c : Char} {R : List Char}, T.dropWhile p = c :: R → p c = false := by
  intro T
  induction T with
  | nil => intro c R h; simp [List.dropWhile] at h
  | cons a t ih =>
    intro c R h
    rw [List.dropWhile_cons] at h
    by_cases ha : p a = true
    · rw [if_pos ha] at h
      exact ih h
    · rw [if_neg ha] at h
      injection h with h1 _
      rw [← h1]
      simpa using ha

theorem tw_through {T Z : List Char} (hZ : Z.head? = some '<') :
    (T ++ Z).takeWhile isPySpace = T.takeWhile isPySpace ∧
    (T ++ Z).dropWhile isPySpace = T.dropWhile isPySpace ++ Z := by
  have hsplit := List.takeWhile_append_dropWhile isPySpace T
  have hlt : isPySpace '<' = false := by decide
  cases hd : T.dropWhile isPySpace with
  | nil =>
    have hT : T.takeWhile isPySpace = T := by
      conv_rhs => rw [← hsplit]
      rw [hd]
      simp
    cases Z with
    | nil => simp at hZ
    | cons z Zt =>
      have hz : z = '<' := by simpa using hZ
      subst hz
      have hall : ∀ x ∈ T, isPySpace x = true := by
        intro x hx
        rw [← hT] at hx
        exact tw_mem x hx
      have hts := tw_stop Zt hall hlt
      constructor
      · rw [hts.1, hT]
      · simp [hts.2, hd]
  | cons c R =>
    have hc : isPySpace c = false := dropWhile_head_false hd
    have hT : T = T.takeWhile isPySpace ++ (c :: R) := by
      conv_lhs => rw [← hsplit]
      rw [hd]
    have hallW : ∀ x ∈ T.takeWhile isPySpace, isPySpace x = true :=
      fun x hx => tw_mem x hx
    have harr : T ++ Z = T.takeWhile isPySpace ++ (c :: (R ++ Z)) := by
      conv_lhs => rw [hT]
      simp [List.append_assoc]
    have hts := tw_stop (R ++ Z) hallW hc
    rw [harr, hts.1, hts.2]
    exact ⟨rfl, by simp [hd]⟩

theorem dropWhile_eq_self_of {p : Char → Bool} {l : List Char}
    (h : ∀ c ∈ l, p c = false) : l.dropWhile p = l := by
  cases l with
  | nil => rfl
  | cons a t =>
    rw [List.dropWhile_cons, if_neg (by simp [h a (by simp)])]

theorem pyStrip_eq_self {l : List Char} (h : ∀ c ∈ l, isPySpace c = false) :
    pyStrip l = l := by
  unfold pyStrip
  rw [dropWhile_eq_self_of h]
  rw [dropWhile_eq_self_of (fun c hc => h c (List.mem_reverse.mp hc))]
  simp

theorem not_space_of_digit_or_dot {c : Char} (h : c.isDigit = true ∨ c = '.') :
    isPySpace c = false := by
  rcases h with hd | hd
  · unfold isPySpace
    by_cases h1 : c = ' '
    · subst h1; exact absurd hd (by decide)
    by_cases h2 : c = '\t'
    · subst h2; exact absurd hd (by decide)
    by_cases h3 : c = '\n'
    · subst h3; exact absurd hd (by decide)
    by_cases h4 : c = '\r'
    · subst h4; exact absurd hd (by decide)
    by_cases h5 : c = Char.ofNat 11
    · subst h5; exact absurd hd (by decide)
    by_cases h6 : c = Char.ofNat 12
    · subst h6; exact absurd hd (by decide)
    simp [h1, h2, h3, h4, h5, h6]
  · subst hd; decide

/-! ### Claim C5 -/

/-- The original descriptor shape: somewhere in the document (selected by
the context `C`) a PropertyGroup whose children are `lead` followed by a
PackageId element. -/
def pgForestOld (pgText : Option (List Char)) (lead : XmlD) (px : Option (List Char))
    (pk : XmlD) (pkgTail0 : List Char) (rest0 : XmlD) (pgTail : List Char)
    (pgRest : XmlD) : XmlD :=
  .dcons "PropertyGroup".toList pgText
    (appendD lead (.dcons "PackageId".toList px pk pkgTail0 rest0)) pgTail pgRest

/-- The same document after the insertion: a `<Version>v</Version>`
element directly after the PackageId element, the whitespace the `\s*`
consumed plus the fixed indentation becoming the PackageId's tail and the
trailing newline plus the remaining tail the new element's tail. -/
def pgForestNew (v : List Char) (pgText : Option (List Char)) (lead : XmlD)
    (px : Option (List Char)) (pk : XmlD) (pkgTail0 : List Char) (rest0 : XmlD)
    (pgTail : List Char) (pgRest : XmlD) : XmlD :=
  .dcons "PropertyGroup".toList pgText
    (appendD lead (.dcons "PackageId".toList px pk
      (pkgTail0.takeWhile isPySpace ++ indentL)
      (.dcons "Version".toList (some v) .dnil (nlL ++ pkgTail0.dropWhile isPySpace) rest0)))
    pgTail pgRest

/-- C5 (amended): for every descriptor that serializes a well-formed tree
whose first `<PackageId>` occurrence is a PackageId element directly
inside a PropertyGroup (its own content free of `</PackageId>`), with no
`<Version>`/`</Version>` occurrence anywhere, the transform with a
well-formed version v produces exactly the serialization of the same tree
with a `<Version>v</Version>` element inserted immediately after that
PackageId, the result has exactly one `<Version>` and one `</Version>`
occurrence, bump's regex extractor reads back v, and tag.py's XML
extractor `read_version_from_csproj` applied to the resulting tree
returns v. -/
theorem claim5_round_trip
    (v path post rt : List Char) (rx pgText px : Option (List Char))
    (C : SCtx) (lead pk rest0 pgRest : XmlD) (pkgTail0 pgTail : List Char)
    (h0 : countOccur openV (serializeElemD ⟨rt, rx,
      plug C (pgForestOld pgText lead px pk pkgTail0 rest0 pgTail pgRest)⟩ ++ post) = 0)
    (hCl : countOccur closeV (serializeElemD ⟨rt, rx,
      plug C (pgForestOld pgText lead px pk pkgTail0 rest0 pgTail pgRest)⟩ ++ post) = 0)
    (hsh : isVersionShape v = true)
    (hpre : countOccur openPkg (openTagS rt ++ (textOf rx ++ (ctxPre C ++
      (openTagS "PropertyGroup".toList ++ (textOf pgText ++ serializeD lead))))) = 0)
    (hbody : countOccur closePkg (textOf px ++ serializeD pk) = 0) :
    insert_or_replace_version (serializeElemD ⟨rt, rx,
        plug C (pgForestOld pgText lead px pk pkgTail0 rest0 pgTail pgRest)⟩ ++ post) v =
      serializeElemD ⟨rt, rx,
        plug C (pgForestNew v pgText lead px pk pkgTail0 rest0 pgTail pgRest)⟩ ++ post ∧
    countOccur openV (insert_or_replace_version (serializeElemD ⟨rt, rx,
      plug C (pgForestOld pgText lead px pk pkgTail0 rest0 pgTail pgRest)⟩ ++ post) v) = 1 ∧
    countOccur closeV (insert_or_replace_version (serializeElemD ⟨rt, rx,
      plug C (pgForestOld pgText lead px pk pkgTail0 rest0 pgTail pgRest)⟩ ++ post) v) = 1 ∧
    read_current_version (insert_or_replace_version (serializeElemD ⟨rt, rx,
      plug C (pgForestOld pgText lead px pk pkgTail0 rest0 pgTail pgRest)⟩ ++ post) v) = some v ∧
    read_version_from_csproj path (eraseElem ⟨rt, rx,
      plug C (pgForestNew v pgText lead px pk pkgTail0 rest0 pgTail pgRest)⟩) = .ok v := by
  have hZhead : ∀ X : List Char,
      (serializeD rest0 ++ (closeTagS "PropertyGroup".toList ++ X)).head? = some '<' := by
    intro X
    cases rest0 with
    | dnil => rfl
    | dcons t x cs tl rest => rfl
  set raw := serializeElemD ⟨rt, rx,
    plug C (pgForestOld pgText lead px pk pkgTail0 rest0 pgTail pgRest)⟩ ++ post with hrawdef
  set A0 := openTagS rt ++ (textOf rx ++ (ctxPre C ++
    (openTagS "PropertyGroup".toList ++ (textOf pgText ++ serializeD lead)))) with hA0
  set Body := textOf px ++ serializeD pk with hBody
  set Z := serializeD rest0 ++ (closeTagS "PropertyGroup".toList ++ (pgTail ++
    (serializeD pgRest ++ (ctxPost C ++ (closeTagS rt ++ post))))) with hZ
  have hZh : Z.head? = some '<' := by rw [hZ]; exact hZhead _
  have hshape : raw = A0 ++ (openPkg ++ (Body ++ (closePkg ++ (pkgTail0 ++ Z)))) := by
    rw [hrawdef, hA0, hBody, hZ, ← openTagS_pkg, ← closeTagS_pkg]
    simp [serializeElemD, pgForestOld, serialize_plug, serializeD, serializeD_append,
      List.append_assoc]
  have hkO : ∀ k, k < openPkg.length → 0 < k → (openPkg.drop k).head? ≠ some '<' := by
    decide
  have hkC : ∀ k, k < closePkg.length → 0 < k → (closePkg.drop k).head? ≠ some '<' := by
    decide
  have hfsp : findSplit closePkg (Body ++ (closePkg ++ (pkgTail0 ++ Z))) =
      some (Body, pkgTail0 ++ Z) :=
    findSplit_exact (by decide) Body
      (no_match_before hbody rfl hkC)
  have htryPkg : tryPkgHere (openPkg ++ (Body ++ (closePkg ++ (pkgTail0 ++ Z)))) =
      some (openPkg ++ Body ++ closePkg ++ pkgTail0.takeWhile isPySpace,
        pkgTail0.dropWhile isPySpace ++ Z) := by
    unfold tryPkgHere
    rw [stripPre_append]
    simp only [hfsp]
    rw [(tw_through hZh).1, (tw_through hZh).2]
  have hB2ne : (openPkg ++ (Body ++ (closePkg ++ (pkgTail0 ++ Z)))) ≠ [] := by
    intro hnil
    have hz := congrArg List.length hnil
    rw [List.length_append] at hz
    simp only [List.length_nil] at hz
    have hO : openPkg.length = 11 := by decide
    omega
  have hApre : ∀ i, i < A0.length →
      tryPkgHere (A0.drop i ++ (openPkg ++ (Body ++ (closePkg ++ (pkgTail0 ++ Z))))) = none := by
    intro i hi
    apply tryPkg_none_of_not_pre
    exact no_match_before hpre
      (show (openPkg ++ (Body ++ (closePkg ++ (pkgTail0 ++ Z)))).head? = some '<' from rfl)
      hkO i hi
  have hpkg : findPkg raw = some (A0,
      openPkg ++ Body ++ closePkg ++ pkgTail0.takeWhile isPySpace,
      pkgTail0.dropWhile isPySpace ++ Z) := by
    rw [hshape, findPkg_append hApre, findPkg_cons_of_some htryPkg hB2ne]
    simp
  have hmain := insert_after_pkg_spec raw v A0
    (openPkg ++ Body ++ closePkg ++ pkgTail0.takeWhile isPySpace)
    (pkgTail0.dropWhile isPySpace ++ Z) h0 hCl hpkg hsh
  obtain ⟨_, hres, hcnt1, hcnt2, hread⟩ := hmain
  have hser : A0 ++ (openPkg ++ Body ++ closePkg ++ pkgTail0.takeWhile isPySpace) ++
      indentL ++ openV ++ v ++ closeV ++ nlL ++ (pkgTail0.dropWhile isPySpace ++ Z) =
      serializeElemD ⟨rt, rx,
        plug C (pgForestNew v pgText lead px pk pkgTail0 rest0 pgTail pgRest)⟩ ++ post := by
    rw [hA0, hBody, hZ, ← openTagS_pkg, ← closeTagS_pkg, ← openTagS_version,
      ← closeTagS_version]
    simp [serializeElemD, pgForestNew, serialize_plug, serializeD, serializeD_append,
      textOf, List.append_assoc]
  -- tree-level facts for the extraction
  have h1 := h0
  rw [hrawdef] at h1
  simp only [serializeElemD] at h1
  obtain ⟨h2, _⟩ := countOccur_append_zero h1
  obtain ⟨_, h3⟩ := countOccur_append_zero h2
  obtain ⟨_, h4⟩ := countOccur_append_zero h3
  obtain ⟨hK, _⟩ := countOccur_append_zero h4
  have hnoV := count0_noVer hK
  obtain ⟨hctxNV, hfOldNV⟩ := noVer_plug hnoV
  simp only [pgForestOld] at hfOldNV
  rw [noVer, if_neg (by decide)] at hfOldNV
  simp only [Bool.and_eq_true] at hfOldNV
  obtain ⟨hkidsNV, hpgRestNV⟩ := hfOldNV
  obtain ⟨hleadNV, hpkgNV⟩ := noVer_append hkidsNV
  rw [noVer, if_neg (by decide)] at hpkgNV
  simp only [Bool.and_eq_true] at hpkgNV
  obtain ⟨hpkNV, hrest0NV⟩ := hpkgNV
  obtain ⟨⟨ch, hh, hhdig⟩, _, hvchars⟩ := shape_char_facts hsh
  have hvne : v ≠ [] := by
    intro hnil
    rw [hnil] at hh
    simp at hh
  have hfindNew : findChildTag "Version".toList (eraseD (appendD lead
      (.dcons "PackageId".toList px pk (pkgTail0.takeWhile isPySpace ++ indentL)
        (.dcons "Version".toList (some v) .dnil
          (nlL ++ pkgTail0.dropWhile isPySpace) rest0)))) =
      some ⟨"Version".toList, some v, XmlF.nilE⟩ := by
    rw [findChildTag_appendD hleadNV]
    rw [eraseD, findChildTag, if_neg (by decide)]
    rw [eraseD, findChildTag, if_pos rfl]
    rfl
  have hstrip : pyStrip v = v :=
    pyStrip_eq_self (fun c hc => not_space_of_digit_or_dot (hvchars c hc))
  have hfirst := @ext_main
    (appendD lead (.dcons "PackageId".toList px pk
      (pkgTail0.takeWhile isPySpace ++ indentL)
      (.dcons "Version".toList (some v) .dnil
        (nlL ++ pkgTail0.dropWhile isPySpace) rest0)))
    pgRest pgText pgTail v ⟨"Version".toList, some v, XmlF.nilE⟩
    hpgRestNV hfindNew rfl hvne C hctxNV
  have hprim : primaryResult (eraseElem ⟨rt, rx,
      plug C (pgForestNew v pgText lead px pk pkgTail0 rest0 pgTail pgRest)⟩) = some v := by
    unfold primaryResult
    simp only [eraseElem, pgForestNew]
    simp only [hfirst, hstrip]
    rw [if_neg hvne]
  have hxml : read_version_from_csproj path (eraseElem ⟨rt, rx,
      plug C (pgForestNew v pgText lead px pk pkgTail0 rest0 pgTail pgRest)⟩) = .ok v := by
    unfold read_version_from_csproj
    simp only [hprim]
  exact ⟨hres.trans hser, hcnt1, hcnt2, hread, hxml⟩

def claim5raw1 : List Char := "<PackageId>A</PackageId><Version>beta</Version>".toList

def claim5raw2 : List Char :=
  "<Project>\n  <FileVersion>9.9.9</FileVersion>\n  <PackageId>Demo</PackageId>\n</Project>".toList

def claim5cexDoc : XmlElemD :=
  ⟨"Project".toList, some "\n  ".toList,
    .dcons "FileVersion".toList (some "9.9.9".toList) .dnil "\n  ".toList
      (.dcons "PackageId".toList (some "Demo".toList) .dnil "\n".toList .dnil)⟩

def claim5cexDocIns : XmlElemD :=
  ⟨"Project".toList, some "\n  ".toList,
    .dcons "FileVersion".toList (some "9.9.9".toList) .dnil "\n  ".toList
      (.dcons "PackageId".toList (some "Demo".toList) .dnil "\n    ".toList
        (.dcons "Version".toList (some "2.0.0".toList) .dnil "\n".toList .dnil))⟩

set_option maxRecDepth 16384 in
/-- Counterexample to C5 as stated, two scenarios. First, a content whose
`<Version>beta</Version>` has no X.Y.Z shape satisfies the stated
hypothesis (the regex extractor finds no tag) yet has a `<PackageId>`
match, and the transform leaves TWO `<Version>` occurrences. Second, a
well-formed document whose PackageId is not inside any PropertyGroup and
which carries a pre-existing `<FileVersion>9.9.9</FileVersion>`: the
transform inserts `<Version>2.0.0</Version>` after the PackageId, the
result is exactly the serialization of the expected tree, yet tag.py's
extractor on that tree answers the fallback value 9.9.9, not the inserted
2.0.0. -/
theorem claim5_cex :
    read_current_version claim5raw1 = none ∧
    (findPkg claim5raw1).isSome = true ∧
    countOccur openV (insert_or_replace_version claim5raw1 "1.2.3".toList) = 2 ∧
    serializeElemD claim5cexDoc = claim5raw2 ∧
    insert_or_replace_version claim5raw2 "2.0.0".toList = serializeElemD claim5cexDocIns ∧
    read_version_from_csproj "p.csproj".toList (eraseElem claim5cexDocIns) =
      .ok "9.9.9".toList ∧
    "9.9.9".toList ≠ "2.0.0".toList :=
  ⟨by decide, by decide, by decide, by decide, by decide, rfl, by decide⟩

set_option maxRecDepth 16384 in
/-- Witness for claim5_round_trip: a concrete one-PropertyGroup document
`<Project>/<PropertyGroup>/<PackageId>Foo</PackageId>` under the trivial
context, version 1.2.3. -/
theorem claim5_round_trip_witness :
    insert_or_replace_version (serializeElemD ⟨"Project".toList, some "\n  ".toList,
        plug .stop (pgForestOld (some "\n    ".toList) .dnil (some "Foo".toList) .dnil
          "\n  ".toList .dnil "\n".toList .dnil)⟩ ++ "\n".toList) "1.2.3".toList =
      serializeElemD ⟨"Project".toList, some "\n  ".toList,
        plug .stop (pgForestNew "1.2.3".toList (some "\n    ".toList) .dnil
          (some "Foo".toList) .dnil "\n  ".toList .dnil "\n".toList .dnil)⟩ ++ "\n".toList ∧
    countOccur openV (insert_or_replace_version (serializeElemD ⟨"Project".toList,
      some "\n  ".toList, plug .stop (pgForestOld (some "\n    ".toList) .dnil
        (some "Foo".toList) .dnil "\n  ".toList .dnil "\n".toList .dnil)⟩ ++
      "\n".toList) "1.2.3".toList) = 1 ∧
    countOccur closeV (insert_or_replace_version (serializeElemD ⟨"Project".toList,
      some "\n  ".toList, plug .stop (pgForestOld (some "\n    ".toList) .dnil
        (some "Foo".toList) .dnil "\n  ".toList .dnil "\n".toList .dnil)⟩ ++
      "\n".toList) "1.2.3".toList) = 1 ∧
    read_current_version (insert_or_replace_version (serializeElemD ⟨"Project".toList,
      some "\n  ".toList, plug .stop (pgForestOld (some "\n    ".toList) .dnil
        (some "Foo".toList) .dnil "\n  ".toList .dnil "\n".toList .dnil)⟩ ++
      "\n".toList) "1.2.3".toList) = some "1.2.3".toList ∧
    read_version_from_csproj "app.csproj".toList (eraseElem ⟨"Project".toList,
      some "\n  ".toList, plug .stop (pgForestNew "1.2.3".toList (some "\n    ".toList)
        .dnil (some "Foo".toList) .dnil "\n  ".toList .dnil "\n".toList .dnil)⟩) =
      .ok "1.2.3".toList :=
  claim5_round_trip "1.2.3".toList "app.csproj".toList "\n".toList "Project".toList
    (some "\n  ".toList) (some "\n    ".toList) (some "Foo".toList) SCtx.stop
    XmlD.dnil XmlD.dnil XmlD.dnil XmlD.dnil "\n  ".toList "\n".toList
    (by decide) (by decide) (by decide) (by decide) (by decide)

/-! ### Discovery ambiguity messages (`bump.py` / `tag.py`) -/

/-- Ambiguity message of `resolve_csproj` (directory branch) in `bump.py`:
joins all candidate names. -/
def multiDirMsg (names : List (List Char)) : List Char :=
  "Multiple .csproj files found in directory (choose one explicitly): ".toList ++
    joinComma names

/-- Ambiguity message of `find_single_csproj` in `tag.py`: joins only the
first five names, appending an ellipsis when there are more. -/
def tagMultiMsg (names : List (List Char)) : List Char :=
  "Multiple .csproj files found. Please provide a more specific path. Found: ".toList ++
    (joinComma (names.take 5) ++ (if 5 < names.length then "...".toList else []))

/-- Model of the directory branch of `resolve_csproj` in `bump.py`, over
the sorted candidate name list the glob produced. -/
def resolve_csproj_dir (supplied : List Char) (cands : List (List Char)) :
    Except (List Char) (List Char) :=
  match cands with
  | [] => .error ("No .csproj file found in directory: ".toList ++ supplied)
  | [c] => .ok c
  | _ => .error (multiDirMsg cands)

/-- Model of `find_single_csproj` in `tag.py` over the candidate names. -/
def find_single_csproj (base : List Char) (cands : List (List Char)) :
    Except (List Char) (List Char) :=
  match cands with
  | [] => .error ("No .csproj file found under '".toList ++ base ++ "'.".toList)
  | [c] => .ok c
  | _ => .error (tagMultiMsg cands)

theorem inf_extend_left {n J : List Char} (X : List Char) (h : n <:+: J) :
    n <:+: X ++ J := by
  obtain ⟨s, t, hst⟩ := h
  exact ⟨X ++ s, t, by rw [← hst]; simp [List.append_assoc]⟩

theorem inf_extend_right {n J : List Char} (Y : List Char) (h : n <:+: J) :
    n <:+: J ++ Y := by
  obtain ⟨s, t, hst⟩ := h
  exact ⟨s, t ++ Y, by rw [← hst]; simp [List.append_assoc]⟩

theorem mem_joinComma {n : List Char} {ns : List (List Char)} (h : n ∈ ns) :
    n <:+: joinComma ns := by
  induction ns with
  | nil => simp at h
  | cons m ms ih =>
    cases ms with
    | nil =>
      simp at h
      subst h
      exact ⟨[], [], by simp [joinComma]⟩
    | cons m2 ms2 =>
      rcases List.mem_cons.mp h with rfl | hm
      · exact ⟨[], ", ".toList ++ joinComma (m2 :: ms2), by simp [joinComma, List.append_assoc]⟩
      · have h2 := inf_extend_left (m ++ ", ".toList) (ih hm)
        have hj : joinComma (m :: m2 :: ms2) = m ++ ", ".toList ++ joinComma (m2 :: ms2) := rfl
        rw [hj]
        simpa [List.append_assoc] using h2

/-! ### Claim C2 -/

/-- C2 (amended): with more than one candidate and no explicit name, both
discoveries fail with an ambiguity error; bump's message enumerates every
candidate name, while tag's message enumerates only the first five. -/
theorem claim2_ambiguity_messages (supplied base : List Char)
    (cands : List (List Char)) (h : 1 < cands.length) :
    resolve_csproj_dir supplied cands = .error (multiDirMsg cands) ∧
    (∀ n ∈ cands, n <:+: multiDirMsg cands) ∧
    find_single_csproj base cands = .error (tagMultiMsg cands) ∧
    (∀ n ∈ cands.take 5, n <:+: tagMultiMsg cands) := by
  obtain ⟨c1, rest, rfl⟩ : ∃ c1 rest, cands = c1 :: rest := by
    cases cands with
    | nil => simp at h
    | cons a t => exact ⟨a, t, rfl⟩
  obtain ⟨c2, rest2, rfl⟩ : ∃ c2 rest2, rest = c2 :: rest2 := by
    cases rest with
    | nil => simp at h
    | cons a t => exact ⟨a, t, rfl⟩
  refine ⟨rfl, ?_, rfl, ?_⟩
  · intro n hn
    exact inf_extend_left _ (mem_joinComma hn)
  · intro n hn
    exact inf_extend_left _ (inf_extend_right _ (mem_joinComma hn))

set_option maxRecDepth 16384 in
/-- Counterexample to C2 as stated: with six candidates, tag's
`find_single_csproj` error message omits the sixth candidate's name. -/
theorem claim2_cex :
    "f.csproj".toList ∈
      ["a.csproj".toList, "b.csproj".toList, "c.csproj".toList, "d.csproj".toList,
        "e.csproj".toList, "f.csproj".toList] ∧
    find_single_csproj "src".toList
      ["a.csproj".toList, "b.csproj".toList, "c.csproj".toList, "d.csproj".toList,
        "e.csproj".toList, "f.csproj".toList] =
      .error (tagMultiMsg
        ["a.csproj".toList, "b.csproj".toList, "c.csproj".toList, "d.csproj".toList,
          "e.csproj".toList, "f.csproj".toList]) ∧
    ¬ ("f.csproj".toList <:+: tagMultiMsg
        ["a.csproj".toList, "b.csproj".toList, "c.csproj".toList, "d.csproj".toList,
          "e.csproj".toList, "f.csproj".toList]) := by
  refine ⟨by decide, rfl, by decide⟩

/-- Witness for C2 (amended) at two concrete candidates. -/
theorem claim2_ambiguity_messages_witness :
    resolve_csproj_dir "src".toList ["A.csproj".toList, "B.csproj".toList] =
      .error (multiDirMsg ["A.csproj".toList, "B.csproj".toList]) ∧
    (∀ n ∈ ["A.csproj".toList, "B.csproj".toList],
      n <:+: multiDirMsg ["A.csproj".toList, "B.csproj".toList]) ∧
    find_single_csproj "base".toList ["A.csproj".toList, "B.csproj".toList] =
      .error (tagMultiMsg ["A.csproj".toList, "B.csproj".toList]) ∧
    (∀ n ∈ (["A.csproj".toList, "B.csproj".toList]).take 5,
      n <:+: tagMultiMsg ["A.csproj".toList, "B.csproj".toList]) :=
  claim2_ambiguity_messages "src".toList "base".toList _ (by decide)

/-! ### The recursive cleaner of `clean.py` -/

/-- A directory forest: empty, a directory with its own contents, or a
plain file. -/
inductive FsF where
  | nilF : FsF
  | consDir (name : List Char) (children rest : FsF)
  | consFile (name : List Char) (rest : FsF)
deriving DecidableEq

/-- `p.name in {'bin', 'obj'}` for a directory entry. -/
def artifactName (n : List Char) : Bool :=
  n = "bin".toList || n = "obj".toList

/-- Model of `clean` in `clean.py` on the contents of the target: every
directory whose name matches is removed with its whole subtree (and not
descended into), everything else is kept and recursively cleaned; the
count of removed matched directories is reported. -/
def clean : FsF → FsF × Nat
  | .nilF => (.nilF, 0)
  | .consFile n rest =>
    let r := clean rest
    (.consFile n r.1, r.2)
  | .consDir n cs rest =>
    let r := clean rest
    if artifactName n then (r.1, r.2 + 1)
    else
      let c := clean cs
      (.consDir n c.1 r.1, r.2 + c.2)

/-- No directory named `bin`/`obj` anywhere in the forest. -/
def noArtifact : FsF → Bool
  | .nilF => true
  | .consFile _ rest => noArtifact rest
  | .consDir n cs rest => !artifactName n && noArtifact cs && noArtifact rest

theorem clean_noArtifact (f : FsF) : noArtifact (clean f).1 = true := by
  induction f with
  | nilF => rfl
  | consFile n rest ih => simpa [clean, noArtifact] using ih
  | consDir n cs rest ihc ihr =>
    by_cases ha : artifactName n
    · simpa [clean, ha] using ihr
    · simp [clean, noArtifact, ha, ihc, ihr]

theorem clean_of_noArtifact {f : FsF} (h : noArtifact f = true) : clean f = (f, 0) := by
  induction f with
  | nilF => rfl
  | consFile n rest ih =>
    rw [noArtifact] at h
    simp [clean, ih h]
  | consDir n cs rest ihc ihr =>
    rw [noArtifact] at h
    simp only [Bool.and_eq_true, Bool.not_eq_true'] at h
    obtain ⟨⟨h1, h2⟩, h3⟩ := h
    simp [clean, h1, ihc h2, ihr h3]

/-! ### Claim C9 -/

/-- C9: the cleaner removes every `bin`/`obj` directory at any depth
(nothing matching survives), cleaning is exhaustive in one pass (a rerun
removes nothing), and on the concrete tree `a/bin`, `a/b/obj`, `a/b/bin`
it removes all three and reports 3, then 0 on the rerun. -/
theorem claim9_cleaner_exhaustive :
    (∀ f : FsF, noArtifact (clean f).1 = true) ∧
    (∀ f : FsF, clean (clean f).1 = ((clean f).1, 0)) ∧
    clean (.consDir "bin".toList .nilF
      (.consDir "b".toList
        (.consDir "obj".toList .nilF (.consDir "bin".toList .nilF .nilF))
        .nilF)) =
      (.consDir "b".toList .nilF .nilF, 3) ∧
    clean (.consDir "b".toList .nilF .nilF) = (.consDir "b".toList .nilF .nilF, 0) :=
  ⟨clean_noArtifact, fun f => clean_of_noArtifact (clean_noArtifact f),
    by decide, by decide⟩

/-! ### The bump mutate cycle (steps 5–9 of `main` in `bump.py`) -/

/-- Result of one mutate cycle: final file content, surviving backup (the
copied original), process exit code, and the log lines printed. -/
structure MutateResult where
  content : List Char
  backup : Option (List Char)
  exit : Nat
  logs : List (List Char)
deriving DecidableEq

/-- Model of steps 5–9 of `main` in `bump.py`: back up the original, write
the transformed content, re-read and verify the expected
`<Version>version</Version>` substring, delete the backup only when
verified, keep and report it otherwise, and return 0 in both cases. -/
def mutate_cycle (backupName raw version : List Char)
    (transform : List Char → List Char) : MutateResult :=
  let updated := transform raw
  let matched := verify updated version
  ⟨updated,
    if matched then none else some raw,
    0,
    ["[STEP] 5/9 Create backup".toList,
      "[OK] Backup created: ".toList ++ backupName,
      "[STEP] 6/9 Update csproj (in-place, preserving formatting)".toList,
      "[STEP] 7/9 Verify change".toList] ++
    (if matched then ["[OK] Version tag verified in csproj".toList]
      else ["[WARN] Could not verify updated version tag.".toList]) ++
    ["[STEP] 8/9 Cleanup backup (if verified)".toList] ++
    (if matched then ["[OK] Backup removed".toList]
      else ["[INFO] Backup retained: ".toList ++ backupName]) ++
    ["[STEP] 9/9 Done".toList,
      "[SUCCESS] Version bump complete: ".toList ++ version]⟩

/-! ### Claim C1 -/

/-- C1: the mutate cycle deletes the backup exactly when the post-write
verification finds `<Version>version</Version>` in the written content;
otherwise the backup survives and a retention message is logged; the exit
status is 0 in both cases (verification failure is soft). -/
theorem claim1_soft_verification (backupName raw version : List Char)
    (transform : List Char → List Char) :
    (mutate_cycle backupName raw version transform).exit = 0 ∧
    ((mutate_cycle backupName raw version transform).backup = none ↔
      verify (transform raw) version = true) ∧
    ((mutate_cycle backupName raw version transform).backup = some raw ∧
        ("[INFO] Backup retained: ".toList ++ backupName) ∈
          (mutate_cycle backupName raw version transform).logs ↔
      verify (transform raw) version = false) := by
  by_cases hm : verify (transform raw) version = true
  · refine ⟨rfl, ?_, ?_⟩
    · simp [mutate_cycle, hm]
    · simp [mutate_cycle, hm]
  · have hm' : verify (transform raw) version = false := by
      cases h2 : verify (transform raw) version
      · rfl
      · exact absurd h2 hm
    refine ⟨rfl, ?_, ?_⟩
    · simp [mutate_cycle, hm']
    · simp [mutate_cycle, hm']

end PDT
